import Mathlib

/-!
Shallow embedding of `src/static/js/search.js` (the client-side search engine
of the textbook repository) and verification of the frozen claims about it.

Strings are modelled as `List Char`.  JavaScript's Unicode-aware character
classes (`\p{L}`, `\p{Lu}`, `\p{Ll}`, `\p{N}`, `\s`), `toLowerCase`,
`toUpperCase` and NFD decomposition are modelled on the character repertoire
the book actually uses (ASCII plus the Latin accented letters of
Italian/English text); characters outside this repertoire are treated as
inert.  All definitions are executable and kernel-reducible (structural or
fuel-based recursion, no well-founded fixpoints).
-/

namespace SearchJs

/-- The code points of the uppercase accented Latin letters modelled
(À Ä Ç È É Ë Ì Í Î Ï Ñ Ò Ó Ö Ù Ú Ü); each lowercases by adding 32,
exactly as `String.prototype.toLowerCase` does for Latin-1. -/
def accentUppers : List Nat := [192, 196, 199, 200, 201, 203, 204, 205, 206, 207, 209, 210, 211, 214, 217, 218, 220]

/-- The code points of the corresponding lowercase accented letters. -/
def accentLowers : List Nat := accentUppers.map (· + 32)

/-- Model of the regex class `\s` (JavaScript whitespace). -/
def jsIsSpace (c : Char) : Bool :=
  c.toNat == 32 || c.toNat == 9 || c.toNat == 10 || c.toNat == 13 ||
  c.toNat == 11 || c.toNat == 12 || c.toNat == 160 ||
  c.toNat == 0x2028 || c.toNat == 0x2029 || c.toNat == 0xFEFF

/-- Model of `\p{Lu}` on the modelled repertoire. -/
def isLu (c : Char) : Bool :=
  (Nat.ble 65 c.toNat && Nat.ble c.toNat 90) || accentUppers.contains c.toNat

/-- Model of `\p{Ll}` on the modelled repertoire. -/
def isLl (c : Char) : Bool :=
  (Nat.ble 97 c.toNat && Nat.ble c.toNat 122) || accentLowers.contains c.toNat

/-- Model of `\p{N}` on the modelled repertoire (decimal digits). -/
def isNd (c : Char) : Bool :=
  Nat.ble 48 c.toNat && Nat.ble c.toNat 57

/-- Model of the regex class `[\p{L}\p{N}]` used by `normalize`. -/
def isLN (c : Char) : Bool := isLu c || isLl c || isNd c

/-- Model of `String.prototype.toLowerCase`, character-wise, on the modelled
repertoire: ASCII `A`-`Z` and the accented uppercase letters add 32. -/
def jsLower (c : Char) : Char :=
  if (Nat.ble 65 c.toNat && Nat.ble c.toNat 90) || accentUppers.contains c.toNat then
    Char.ofNat (c.toNat + 32)
  else c

/-- Model of `String.prototype.toUpperCase` on ASCII (used by `romanToInt`,
which only distinguishes the seven Roman-numeral letters). -/
def jsUpper (c : Char) : Char :=
  if Nat.ble 97 c.toNat && Nat.ble c.toNat 122 then Char.ofNat (c.toNat - 32)
  else c

/-- Model of `String.prototype.normalize("NFD")`, character-wise, on the
modelled repertoire: the accented lowercase letters decompose into their base
letter followed by a combining mark; everything else is left alone.
(`normalize` lowercases before decomposing, so only lowercase letters need
decomposition entries.) -/
def nfdChar (c : Char) : List Char :=
  if c.toNat = 224 then ['a', Char.ofNat 768]       -- a grave
  else if c.toNat = 228 then ['a', Char.ofNat 776]  -- a diaeresis
  else if c.toNat = 231 then ['c', Char.ofNat 807]  -- c cedilla
  else if c.toNat = 232 then ['e', Char.ofNat 768]
  else if c.toNat = 233 then ['e', Char.ofNat 769]  -- e acute
  else if c.toNat = 235 then ['e', Char.ofNat 776]
  else if c.toNat = 236 then ['i', Char.ofNat 768]
  else if c.toNat = 237 then ['i', Char.ofNat 769]
  else if c.toNat = 238 then ['i', Char.ofNat 770]  -- i circumflex
  else if c.toNat = 239 then ['i', Char.ofNat 776]
  else if c.toNat = 241 then ['n', Char.ofNat 771]  -- n tilde
  else if c.toNat = 242 then ['o', Char.ofNat 768]
  else if c.toNat = 243 then ['o', Char.ofNat 769]
  else if c.toNat = 246 then ['o', Char.ofNat 776]
  else if c.toNat = 249 then ['u', Char.ofNat 768]
  else if c.toNat = 250 then ['u', Char.ofNat 769]
  else if c.toNat = 252 then ['u', Char.ofNat 776]
  else [c]

/-- Model of the regex class `[̀-ͯ]` (combining diacritical marks)
removed by `normalize`. -/
def isCombMark (c : Char) : Bool :=
  Nat.ble 768 c.toNat && Nat.ble c.toNat 879

/-- NFD decomposition of a whole string (`flatMap` of `nfdChar`). -/
def nfdStr : List Char → List Char
  | [] => []
  | c :: rest => nfdChar c ++ nfdStr rest

/-- Model of `.replace(/[^\p{L}\p{N}]+/gu, ' ')`: every maximal run of
characters that are neither letters nor digits becomes a single space. -/
def replNonLN : List Char → List Char
  | [] => []
  | [c] => if isLN c then [c] else [' ']
  | c :: d :: rest =>
    if !isLN c && !isLN d then replNonLN (d :: rest)
    else (if isLN c then c else ' ') :: replNonLN (d :: rest)

/-- Model of `.replace(/\s+/g, ' ')`: every maximal whitespace run becomes a
single space. -/
def collapseWS : List Char → List Char
  | [] => []
  | [c] => if jsIsSpace c then [' '] else [c]
  | c :: d :: rest =>
    if jsIsSpace c && jsIsSpace d then collapseWS (d :: rest)
    else (if jsIsSpace c then ' ' else c) :: collapseWS (d :: rest)

/-- Model of `String.prototype.trim`. -/
def jsTrim (s : List Char) : List Char :=
  ((s.dropWhile jsIsSpace).reverse.dropWhile jsIsSpace).reverse

/-- `normalize` (search.js lines 254-262): lower-case, NFD-decompose, strip
combining marks, replace non-alphanumeric runs by single spaces, trim,
collapse whitespace. -/
def normalize (s : List Char) : List Char :=
  collapseWS (jsTrim (replNonLN ((nfdStr (s.map jsLower)).filter (fun c => !isCombMark c))))

/-- Index of the first position of `s` at which `needle` is a prefix
(the core of `String.prototype.indexOf`). -/
def firstPrefixPos (needle : List Char) : List Char → Option Nat
  | [] => if needle.isEmpty then some 0 else none
  | c :: rest =>
    if needle.isPrefixOf (c :: rest) then some 0
    else (firstPrefixPos needle rest).map (· + 1)

/-- Model of `String.prototype.indexOf` (result `-1` when absent; the empty
needle is found at 0, as in JavaScript). -/
def strIndexOf (hay needle : List Char) : Int :=
  match firstPrefixPos needle hay with
  | some n => (n : Int)
  | none => -1

/-- First position of a single character (used for `indexOf('$')`). -/
def firstCharPos (c : Char) : List Char → Option Nat
  | [] => none
  | d :: rest => if d == c then some 0 else (firstCharPos c rest).map (· + 1)

/-- Model of `String.prototype.lastIndexOf` for a single character. -/
def lastCharPos (c : Char) (s : List Char) : Option Nat :=
  (firstCharPos c s.reverse).map (fun j => s.length - 1 - j)

/-- Fueled worker for `occCount`: count non-overlapping occurrences, scanning
left to right and resuming after each match.  One unit of fuel per match is
enough because each match consumes at least one character of the haystack. -/
def occFuel (needle : List Char) : Nat → List Char → Nat
  | 0, _ => 0
  | fuel + 1, hay =>
    match firstPrefixPos needle hay with
    | none => 0
    | some j => 1 + occFuel needle fuel (hay.drop (j + needle.length))

/-- `occCount` (search.js lines 327-337): non-overlapping left-to-right count
of `needle` in `hay`; 0 when either string is empty (the `!hay || !needle`
guard). -/
def occCount (hay needle : List Char) : Nat :=
  if hay.isEmpty || needle.isEmpty then 0 else occFuel needle hay.length hay

/-- Model of `String.prototype.slice` with JavaScript index semantics
(negative indices count from the end, everything is clamped to the string). -/
def jsSlice (s : List Char) (a b : Int) : List Char :=
  let len : Int := s.length
  let a2 := if a < 0 then max (len + a) 0 else min a len
  let b2 := if b < 0 then max (len + b) 0 else min b len
  (s.take b2.toNat).drop a2.toNat

/-- Decimal value of an all-digit string (the relevant case of `parseInt`;
the regexes guarantee the argument matches `\d+` wherever this is used). -/
def decimalVal (s : List Char) : Nat :=
  s.foldl (fun acc c => acc * 10 + (c.toNat - 48)) 0

/-- Decimal digits of a natural number (used to build the `<<LATEXn>>`
placeholder ids). -/
def natDigitsAux : Nat → Nat → List Char
  | 0, _ => []
  | fuel + 1, n =>
    if n < 10 then [Char.ofNat (48 + n)]
    else natDigitsAux fuel (n / 10) ++ [Char.ofNat (48 + n % 10)]

/-- Decimal digits of a natural number. -/
def natDigits (n : Nat) : List Char := natDigitsAux (n + 1) n

/-! ### The sanitizer `stripLiquidAndNoise` (search.js lines 120-173) -/

/-- One global replace of `openT … closeT` (non-greedy body) by `repl`:
the model of `.replace(/\x7b\%[\s\S]*?\%\x7d/g, ' ')` and its `\x7b\x7b …
\x7d\x7d` sibling.  At each position, if the opening token starts here and the
closing token occurs later, the whole bracketed stretch is replaced and
scanning resumes after it; otherwise the regex engine advances one
character. -/
def replDelimFuel (openT closeT repl : List Char) : Nat → List Char → List Char
  | 0, s => s
  | fuel + 1, s =>
    match s with
    | [] => []
    | c :: rest =>
      if openT.isPrefixOf s then
        match firstPrefixPos closeT (s.drop openT.length) with
        | some j =>
          repl ++ replDelimFuel openT closeT repl fuel (s.drop (openT.length + j + closeT.length))
        | none => c :: replDelimFuel openT closeT repl fuel rest
      else c :: replDelimFuel openT closeT repl fuel rest

/-- Wrapper choosing enough fuel. -/
def replDelim (openT closeT repl s : List Char) : List Char :=
  replDelimFuel openT closeT repl s.length s

/-- The token `\begin{env}` for an environment name. -/
def beginTok (env : List Char) : List Char :=
  "\\begin\x7b".toList ++ env ++ ['\x7d']

/-- The token `\end{env}` for an environment name. -/
def endTok (env : List Char) : List Char :=
  "\\end\x7b".toList ++ env ++ ['\x7d']

/-- Lazy-body search used by the `\( \begin{...} … \end{...} \s* \)` regexes:
starting from the current body, find successive occurrences of `\end{env}`;
at each one, skip the following whitespace run (`\s*`) and test for the
closing literal `closeLit`; the first occurrence that is so followed ends the
match.  Returns the number of characters consumed from the body through the
closing literal.  This is exactly the backtracking behaviour of the lazy
`[\s\S]*?` in the source regex. -/
def findEndClose (env closeLit : List Char) : Nat → List Char → Option Nat
  | 0, _ => none
  | fuel + 1, s =>
    match firstPrefixPos (endTok env) s with
    | none => none
    | some j =>
      let after := s.drop (j + (endTok env).length)
      let w := (after.takeWhile jsIsSpace).length
      if closeLit.isPrefixOf (after.drop w) then
        some (j + (endTok env).length + w + closeLit.length)
      else
        (findEndClose env closeLit fuel (s.drop (j + 1))).map (· + (j + 1))

/-- Try to match, at the current position, the regex
`openLit \s* \begin{gathered|aligned} [\s\S]*? \end{same} \s* closeLit`;
returns the number of characters consumed on success. -/
def tryEnvDelim (openLit closeLit env s : List Char) : Option Nat :=
  let s1 := s.drop openLit.length
  let w := (s1.takeWhile jsIsSpace).length
  let s2 := s1.drop w
  if (beginTok env).isPrefixOf s2 then
    (findEndClose env closeLit (s2.length + 1) (s2.drop (beginTok env).length)).map
      (fun k => openLit.length + w + (beginTok env).length + k)
  else none

/-- Try to match, at the current position, the regex
`openLit \s* \begin{gathered|aligned} [\s\S]*? \end{same} \s* closeLit`;
returns the number of characters consumed on success. -/
def tryGatherDelim (openLit closeLit : List Char) (s : List Char) : Option Nat :=
  if openLit.isPrefixOf s then
    match tryEnvDelim openLit closeLit "gathered".toList s with
    | some k => some k
    | none => tryEnvDelim openLit closeLit "aligned".toList s
  else none

/-- One global replace of a `tryGatherDelim` match by `" … "`, advancing one
character when there is no match at the current position. -/
def gatherDelimFuel (openLit closeLit : List Char) : Nat → List Char → List Char
  | 0, s => s
  | fuel + 1, s =>
    match s with
    | [] => []
    | c :: rest =>
      match tryGatherDelim openLit closeLit s with
      | some k => ' ' :: '…' :: ' ' :: gatherDelimFuel openLit closeLit fuel (s.drop k)
      | none => c :: gatherDelimFuel openLit closeLit fuel rest

/-- Try to match the bare `\begin{gathered|aligned}[\s\S]*?\end{same}` regex
at the current position (lazy body, so the first matching `\end`). -/
def tryEnvBare (env s : List Char) : Option Nat :=
  if (beginTok env).isPrefixOf s then
    (firstPrefixPos (endTok env) (s.drop (beginTok env).length)).map
      (fun j => (beginTok env).length + j + (endTok env).length)
  else none

/-- Try to match the bare `\begin{gathered|aligned}[\s\S]*?\end{same}` regex
at the current position (lazy body, so the first matching `\end`). -/
def tryGatherBare (s : List Char) : Option Nat :=
  match tryEnvBare "gathered".toList s with
  | some k => some k
  | none => tryEnvBare "aligned".toList s

/-- One global replace of a bare `\begin{...}…\end{...}` block by `" … "`. -/
def gatherBareFuel : Nat → List Char → List Char
  | 0, s => s
  | fuel + 1, s =>
    match s with
    | [] => []
    | c :: rest =>
      match tryGatherBare s with
      | some k => ' ' :: '…' :: ' ' :: gatherBareFuel fuel (s.drop k)
      | none => c :: gatherBareFuel fuel rest

/-- The placeholder id `<<LATEXn>>`. -/
def placeholderStr (n : Nat) : List Char :=
  "<<LATEX".toList ++ natDigits n ++ ">>".toList

/-- The math-protection pass, modelling
`text.replace(/(\$\$?)([\s\S]*?)(\1)/g, …)` (search.js lines 145-151):
each `$…$` / `$$…$$` span is replaced by `<<LATEXn>>` and the original span
text (delimiters included) is pushed onto the list of saved spans.  The
greedy `(\$\$?)` first tries `$$`; when no closing `$$` exists the engine
backtracks to a single `$`, whose lazy body is then empty (the second `$` of
the would-be `$$` closes it). -/
def protectFuel : Nat → Nat → List Char → List Char × List (List Char)
  | 0, _, s => (s, [])
  | fuel + 1, n, s =>
    match s with
    | [] => ([], [])
    | c :: rest =>
      if c = '$' then
        if rest.head? = some '$' then
          let rest2 := rest.tail
          match firstPrefixPos ['$', '$'] rest2 with
          | some j =>
            let body := rest2.take j
            let span := '$' :: '$' :: body ++ ['$', '$']
            let r := protectFuel fuel (n + 1) (rest2.drop (j + 2))
            (placeholderStr n ++ r.1, span :: r.2)
          | none =>
            let r := protectFuel fuel (n + 1) rest2
            (placeholderStr n ++ r.1, ['$', '$'] :: r.2)
        else
          match firstCharPos '$' rest with
          | some j =>
            let body := rest.take j
            let span := '$' :: body ++ ['$']
            let r := protectFuel fuel (n + 1) (rest.drop (j + 1))
            (placeholderStr n ++ r.1, span :: r.2)
          | none =>
            let r := protectFuel fuel n rest
            ('$' :: r.1, r.2)
      else
        let r := protectFuel fuel n rest
        (c :: r.1, r.2)

/-- Math protection with enough fuel. -/
def protect (s : List Char) : List Char × List (List Char) :=
  protectFuel s.length 0 s

/-- Is `c` one of the sentence-ending marks `.` `!` `?`. -/
def isPunctSent (c : Char) : Bool :=
  c.toNat == 46 || c.toNat == 33 || c.toNat == 63

/-- The glued-word heuristic (a), `.replace(/([.!?])(\p{Lu})/gu, '$1 … $2')`:
insert a visible separator between sentence punctuation and a following
uppercase letter.  After a regex match the engine resumes at the uppercase
letter, which can never start a new match (it is not punctuation), so the
plain two-character scan below is equivalent to the global regex replace. -/
def heurA : List Char → List Char
  | [] => []
  | [c] => [c]
  | c :: d :: rest =>
    if isPunctSent c && isLu d then c :: ' ' :: '…' :: ' ' :: heurA (d :: rest)
    else c :: heurA (d :: rest)

/-- The glued-word heuristic (b),
`.replace(/([\p{Ll}\p{N}])(\p{Lu})(?=\p{Ll})/gu, '$1 … $2')`: insert a
separator between a lowercase letter or digit and a following capitalized
word (uppercase letter itself followed by a lowercase one).  The uppercase
letter the engine resumes at can never start a new match (it is not
lowercase), so the three-character scan is equivalent to the global
replace. -/
def heurB : List Char → List Char
  | c :: d :: e :: rest =>
    if (isLl c || isNd c) && isLu d && isLl e then
      c :: ' ' :: '…' :: ' ' :: heurB (d :: e :: rest)
    else c :: heurB (d :: e :: rest)
  | s => s

/-- GetSubstitution semantics of a string replacement in
`String.prototype.replace` with a string pattern (so no capture groups):
`$$` is a literal dollar, `$&` inserts the matched text, a backtick after `$`
inserts the text before the match, an apostrophe after `$` inserts the text
after the match, and any other `$`-sequence (including `$n`, since there are
no captures) is literal. -/
def processRepl : List Char → List Char → List Char → List Char → List Char
  | [], _, _, _ => []
  | [c], _, _, _ => [c]
  | c :: d :: rest, m, b, a =>
    if c = '$' then
      if d = '$' then '$' :: processRepl rest m b a
      else if d = '&' then m ++ processRepl rest m b a
      else if d = Char.ofNat 96 then b ++ processRepl rest m b a
      else if d = Char.ofNat 39 then a ++ processRepl rest m b a
      else '$' :: d :: processRepl rest m b a
    else c :: processRepl (d :: rest) m b a

/-- Model of `String.prototype.replace(pattern, replacement)` with string
pattern and string replacement: replace the first occurrence of `pat`,
applying GetSubstitution to the replacement text. -/
def jsReplaceFirst (s pat repl : List Char) : List Char :=
  match firstPrefixPos pat s with
  | none => s
  | some j =>
    s.take j ++ processRepl repl pat (s.take j) (s.drop (j + pat.length)) ++
      s.drop (j + pat.length)

/-- Restore the saved math spans (search.js lines 165-170): for each saved
span `i` in order, replace the first occurrence of `<<LATEXi>>` by the span
text via `String.prototype.replace` (whose `$`-substitution applies to the
replacement string). -/
def restoreAux : List Char → Nat → List (List Char) → List Char
  | t, _, [] => t
  | t, i, p :: ps => restoreAux (jsReplaceFirst t (placeholderStr i) p) (i + 1) ps

/-- The `\( … \)` gathered/aligned collapse with enough fuel. -/
def gatherParen (s : List Char) : List Char :=
  gatherDelimFuel "\\(".toList "\\)".toList s.length s

/-- The `\[ … \]` gathered/aligned collapse with enough fuel. -/
def gatherBrack (s : List Char) : List Char :=
  gatherDelimFuel "\\[".toList "\\]".toList s.length s

/-- The bare `\begin{...} … \end{...}` collapse with enough fuel. -/
def gatherBare (s : List Char) : List Char :=
  gatherBareFuel s.length s

/-- The two liquid/jekyll removals (step 1 of `stripLiquidAndNoise`). -/
def liquidPass (text : List Char) : List Char :=
  replDelim "\x7b\x7b".toList "\x7d\x7d".toList [' ']
    (replDelim "\x7b%".toList "%\x7d".toList [' '] text)

/-- `stripLiquidAndNoise` (search.js lines 120-173): remove liquid markup,
collapse gathered/aligned blocks, protect math spans, apply the glued-word
heuristics, collapse whitespace and trim, and restore the math spans. -/
def stripLiquidAndNoise (text : List Char) : List Char :=
  if text.isEmpty then []
  else
    let pr := protect (gatherBare (gatherBrack (gatherParen (liquidPass text))))
    restoreAux (jsTrim (collapseWS (heurB (heurA pr.1)))) 0 pr.2

/-! ### HTML escaping and the degraded math renderer (search.js lines 175-252) -/

/-- One global character-to-string replacement (each `.replace(/c/g, r)`
step of `escapeHtml`). -/
def replChar (c : Char) (r : List Char) : List Char → List Char
  | [] => []
  | d :: rest => (if d = c then r else [d]) ++ replChar c r rest

/-- `escapeHtml` (search.js lines 175-182): the five global replaces in
source order. -/
def escapeHtml (s : List Char) : List Char :=
  replChar (Char.ofNat 39) "&#39;".toList
    (replChar '"' "&quot;".toList
      (replChar '>' "&gt;".toList
        (replChar '<' "&lt;".toList
          (replChar '&' "&amp;".toList s))))

/-- Modelled from the spec: `decodeHtmlEntities` (search.js lines 184-190)
delegates to the browser (`textarea.innerHTML` / `.value`), which is outside
the repository; the code's comment documents the intent ("decodifica entità
tipo `&gt;` `&#39;` `&amp;` ecc.").  The model decodes, left to right and
non-recursively, the five entities that `escapeHtml` produces, leaving every
other character alone. -/
def decodeHtmlEntitiesFuel : Nat → List Char → List Char
  | 0, s => s
  | _ + 1, [] => []
  | fuel + 1, c :: rest =>
    if c = '&' then
      if "amp;".toList.isPrefixOf rest then '&' :: decodeHtmlEntitiesFuel fuel (rest.drop 4)
      else if "lt;".toList.isPrefixOf rest then '<' :: decodeHtmlEntitiesFuel fuel (rest.drop 3)
      else if "gt;".toList.isPrefixOf rest then '>' :: decodeHtmlEntitiesFuel fuel (rest.drop 3)
      else if "quot;".toList.isPrefixOf rest then '"' :: decodeHtmlEntitiesFuel fuel (rest.drop 5)
      else if "#39;".toList.isPrefixOf rest then Char.ofNat 39 :: decodeHtmlEntitiesFuel fuel (rest.drop 4)
      else '&' :: decodeHtmlEntitiesFuel fuel rest
    else c :: decodeHtmlEntitiesFuel fuel rest

/-- Entity decoding with enough fuel. -/
def decodeHtmlEntities (s : List Char) : List Char :=
  decodeHtmlEntitiesFuel s.length s

/-- `renderLatexInHtml` (search.js lines 192-252) on the branch where the
math renderer is unavailable (`pickKatex()` yields nothing, lines 199-201):
the function returns `escapeHtml(decodeHtmlEntities(plainText))` and never
reaches the span-scanning loop. -/
def renderLatexNoKatex (plainText : List Char) : List Char :=
  escapeHtml (decodeHtmlEntities plainText)

/-! ### Scoring (search.js lines 327-350) -/

/-- Minimum of a list of integers; `none` models `Math.min()` of an empty
argument list, which is `Infinity` in JavaScript. -/
def minIntList : List Int → Option Int
  | [] => none
  | x :: xs => some (xs.foldl min x)

/-- `scoreMatchAND` (search.js lines 339-350).  The early loop returns `-1`
as soon as a non-empty token is missing from the haystack.  `idx` is
`Math.min` over the (non-negative) first indices of all tokens; when the
token list is empty the minimum is `Infinity`, so `score` becomes
`-Infinity` and the final `score > 0 ? score : -1` yields `-1` — the model
collapses that branch to `-1` directly. -/
def scoreMatchAND (haystack : List Char) (tokens : List (List Char)) : Int :=
  if tokens.any (fun t => !t.isEmpty && strIndexOf haystack t == -1) then -1
  else
    match minIntList ((tokens.map (fun t => strIndexOf haystack t)).filter (fun i => decide (0 ≤ i))) with
    | none => -1
    | some idx =>
      let score := (5000 - idx) + (tokens.map (fun t => (occCount haystack t : Int) * 20)).sum
      if score > 0 then score else -1

/-! ### Snippet extraction (search.js lines 352-388) -/

/-- `makeSnippet` (search.js lines 352-388). -/
def makeSnippet (text q : List Char) (maxLen : Int) : List Char :=
  let t := stripLiquidAndNoise text
  let lower := t.map jsLower
  let qi := q.map jsLower
  let i := strIndexOf lower qi
  if i = -1 then jsSlice t 0 maxLen
  else
    let start : Int := max 0 (i - Int.fdiv maxLen 3)
    let stop : Int := min (t.length : Int) (start + maxLen)
    let core0 := jsSlice t start stop
    let core :=
      if core0.count '$' % 2 = 1 then
        let rest := jsSlice t stop (min (t.length : Int) (stop + 200))
        match firstCharPos '$' rest with
        | some nd => core0 ++ jsSlice t stop (stop + nd + 1)
        | none =>
          match lastCharPos '$' core0 with
          | some ld => jsSlice core0 0 ld
          | none => core0
      else core0
    let sep := [' ', '…', ' ']
    let s1 := if start > 0 then '…' :: sep ++ core else core
    if stop < (t.length : Int) then s1 ++ sep ++ ['…'] else s1

/-! ### Records, filtering and ordering (search.js lines 453-517) -/

/-- A search-index record `{url, title, content}`. -/
structure Doc where
  url : List Char
  title : List Char
  content : List Char
deriving DecidableEq, Repr

/-- `stripBaseFromUrl` (search.js lines 264-271).  The deployment base path
comes from the page's own script tag (glue, not core); the model takes the
base to be empty, in which case the function returns its argument
unchanged. -/
def stripBaseFromUrl (url : List Char) : List Char := url

/-- Collapse runs of two or more slashes (`.replace(/\/\x7b2,\x7d/g, '/')`). -/
def collapseSlashes : List Char → List Char
  | [] => []
  | [c] => [c]
  | c :: d :: rest =>
    if c = '/' && d = '/' then collapseSlashes (d :: rest)
    else c :: collapseSlashes (d :: rest)

/-- The finite language of the four anchored alternation regexes tested by
`isBigTocResult` (search.js lines 460-465). -/
def bigTocForms : List (List Char) :=
  ["/it".toList, "/it/".toList, "/en".toList, "/en/".toList,
   "/it/index".toList, "/it/index.html".toList, "/en/index".toList, "/en/index.html".toList,
   "/it/toc-big".toList, "/it/toc-big.html".toList, "/en/toc-big".toList, "/en/toc-big.html".toList,
   "/it/toc_big".toList, "/it/toc_big.html".toList, "/en/toc_big".toList, "/en/toc_big.html".toList]

/-- `isBigTocResult` (search.js lines 453-466): strip the base, collapse
duplicate slashes, and test the language-home / big-TOC URL shapes. -/
def isBigTocResult (url : List Char) : Bool :=
  bigTocForms.contains (collapseSlashes (stripBaseFromUrl url))

/-- The letter values used by `romanToInt`. -/
def romanVal (c : Char) : Int :=
  if c = 'I' then 1 else if c = 'V' then 5 else if c = 'X' then 10
  else if c = 'L' then 50 else if c = 'C' then 100 else if c = 'D' then 500
  else if c = 'M' then 1000 else 0

/-- `romanToInt` (search.js lines 468-478): scan right to left, subtracting a
value smaller than the previous one and adding (and remembering) the others;
`total || 0` leaves every integer unchanged except that 0 stays 0. -/
def romanToInt (r : List Char) : Int :=
  ((r.map jsUpper).reverse.foldl
    (fun st c =>
      let v := romanVal c
      if v < st.2 then (st.1 - v, st.2) else (st.1 + v, v))
    ((0 : Int), (0 : Int))).1

/-- Split on a character (`String.prototype.split` with a one-character
separator: the empty string splits to one empty field). -/
def splitOnChar (sep : Char) : List Char → List (List Char)
  | [] => [[]]
  | c :: rest =>
    if c = sep then [] :: splitOnChar sep rest
    else
      match splitOnChar sep rest with
      | [] => [[c]]
      | f :: fs => (c :: f) :: fs

/-- The anchored path regex `^\/(it|en)\/([^\/]+)\/(\d+)\/([^\/]+)$` of
`bookOrderKey`: exactly four slash-separated segments after a leading slash,
the first `it` or `en`, the third all digits.  Returns the part folder, the
chapter digits and the last segment. -/
def parseBookPath (u : List Char) : Option (List Char × List Char × List Char) :=
  match splitOnChar '/' u with
  | [e, lang, p2, p3, p4] =>
    if e.isEmpty && (lang = "it".toList || lang = "en".toList) &&
        !p2.isEmpty && !p3.isEmpty && p3.all isNd && !p4.isEmpty then
      some (p2, p3, p4)
    else none
  | _ => none

/-- Does the last path segment match `^(\d+)\.html$`?  Returns the digits. -/
def secDigits (last : List Char) : Option (List Char) :=
  let n := last.length
  if 5 < n && (last.drop (n - 5) = ".html".toList) && (last.take (n - 5)).all isNd then
    some (last.take (n - 5))
  else none

/-- `bookOrderKey` (search.js lines 483-508): the book-position tuple
`[partIndex, chapterNumber, sectionNumberOr0, isSectionFlag]`.  `parseInt(x)
|| 999` maps the (falsy) value 0 to 999. -/
def bookOrderKey (url : List Char) : List Int :=
  let u := collapseSlashes (stripBaseFromUrl url)
  if u = "/it/pr.html".toList || u = "/en/pr.html".toList then [0, 0, 0, 0]
  else
    match parseBookPath u with
    | none => [999, 999, 999, 9]
    | some (partFolder, chapDigits, last) =>
      let chap : Int := if decimalVal chapDigits = 0 then 999 else decimalVal chapDigits
      let partIdx := romanToInt partFolder
      if last = "index.html".toList then [partIdx, chap, 0, 0]
      else
        match secDigits last with
        | some ds =>
          let sec : Int := if decimalVal ds = 0 then 999 else decimalVal ds
          [partIdx, chap, sec, 1]
        | none => [partIdx, chap, 999, 1]

/-- The left-exhausted tail of the `cmpKeys` loop: every remaining component
of the first key reads as 0. -/
def cmpNilKeys : List Int → Int
  | [] => 0
  | y :: ys => if (0 : Int) ≠ y then -y else cmpNilKeys ys

/-- `cmpKeys` (search.js lines 510-517): first nonzero componentwise
difference, missing components reading as 0. -/
def cmpKeys : List Int → List Int → Int
  | [], b => cmpNilKeys b
  | x :: xs, [] => if x ≠ 0 then x else cmpKeys xs []
  | x :: xs, y :: ys => if x ≠ y then x - y else cmpKeys xs ys

/-! ### The search pipeline `doSearch` (search.js lines 519-579) -/

/-- The trimmed query `qRaw` (and `qTrim`, which trims the already-trimmed
string again and so equals it). -/
def qRawOf (raw : List Char) : List Char := jsTrim raw

/-- Is the query quote-wrapped (`qTrim.startsWith('"') && qTrim.endsWith('"')
&& qTrim.length >= 2`)? -/
def quotedOf (raw : List Char) : Bool :=
  let q := qRawOf raw
  (q.head? == some '"') && (q.getLast? == some '"') && 2 ≤ q.length

/-- The phrase text: the query with the wrapping quotes stripped when
quote-wrapped. -/
def phraseRawOf (raw : List Char) : List Char :=
  if quotedOf raw then (qRawOf raw).drop 1 |>.dropLast else qRawOf raw

/-- Phrase mode is triggered when the query is quoted or the unquoted text
contains whitespace (`quoted || /\s/.test(phraseRaw)`). -/
def wantsPhraseOf (raw : List Char) : Bool :=
  quotedOf raw || (phraseRawOf raw).any jsIsSpace

/-- The normalized phrase. -/
def phraseNormOf (raw : List Char) : List Char := normalize (phraseRawOf raw)

/-- The AND tokens: `normalize(qRaw).split(' ').filter(Boolean)`. -/
def tokensOf (raw : List Char) : List (List Char) :=
  (splitOnChar ' ' (normalize (qRawOf raw))).filter (fun t => !t.isEmpty)

/-- The matchable haystack of one record:
`normalize(stripLiquidAndNoise((item.content || '') + ' ' + (item.title || '')))`. -/
def hayOf (item : Doc) : List Char :=
  normalize (stripLiquidAndNoise (item.content ++ ' ' :: item.title))

/-- The per-record score of the loop body (search.js lines 543-553):
`none` when the record is skipped (`continue`), `some s` when
`scored.push({s, item})` runs. -/
def rawScore (raw : List Char) (hay : List Char) : Option Int :=
  if wantsPhraseOf raw then
    if (phraseNormOf raw).isEmpty then none
    else
      let idx := strIndexOf hay (phraseNormOf raw)
      if idx = -1 then none
      else some ((5000 - idx) + (occCount hay (phraseNormOf raw) : Int) * 300)
  else
    let s := scoreMatchAND hay (tokensOf raw)
    if s < 0 then none else some s

/-- The `scored` array after the loop over the index (search.js lines
537-556): big-TOC records are skipped, every other record is scored, and the
survivors keep the index order. -/
def scoredList (data : List Doc) (raw : List Char) : List (Int × Doc) :=
  (data.filter (fun item => !isBigTocResult item.url)).filterMap
    (fun item => (rawScore raw (hayOf item)).map (fun s => (s, item)))

/-- The sort comparator (search.js lines 558-575): book order by part then
chapter, then score descending, then `cmpKeys` on the full keys. -/
def cmpResult (a b : Int × Doc) : Int :=
  let ka := bookOrderKey a.2.url
  let kb := bookOrderKey b.2.url
  let byPart := ka.getD 0 0 - kb.getD 0 0
  if byPart ≠ 0 then byPart
  else
    let byChap := ka.getD 1 0 - kb.getD 1 0
    if byChap ≠ 0 then byChap
    else
      let byScore := b.1 - a.1
      if byScore ≠ 0 then byScore
      else cmpKeys ka kb

/-- Stable insertion of `x` after every element that compares `≤ 0` against
it (so original order is kept among comparator-equal elements). -/
def insertOrd (x : Int × Doc) : List (Int × Doc) → List (Int × Doc)
  | [] => [x]
  | y :: ys => if cmpResult y x ≤ 0 then y :: insertOrd x ys else x :: y :: ys

/-- Stable sort by `cmpResult`, the model of `Array.prototype.sort` with a
consistent comparator (modern engines sort stably; with this comparator the
stable sorted permutation is unique). -/
def sortScored : List (Int × Doc) → List (Int × Doc)
  | [] => []
  | x :: xs => insertOrd x (sortScored xs)

/-- The sorted `scored` array. -/
def doSearchSorted (data : List Doc) (raw : List Char) : List (Int × Doc) :=
  sortScored (scoredList data raw)

/-- `doSearch` (search.js lines 519-579) as a function from the index and the
raw input to the ordered record list handed to `renderResults`: empty for a
whitespace-only query, otherwise the sorted, scored survivors capped at 80
(`scored.slice(0, 80).map(x => x.item)`). -/
def doSearch (data : List Doc) (raw : List Char) : List Doc :=
  if (qRawOf raw).isEmpty then []
  else ((doSearchSorted data raw).take 80).map Prod.snd

/-! ### Helper predicates and concrete data used by the verification -/

/-- Lowercase ASCII letters and digits: the only non-space characters the
model's `normalize` can output. -/
def baseAlnum (c : Char) : Bool :=
  (Nat.ble 97 c.toNat && Nat.ble c.toNat 122) || (Nat.ble 48 c.toNat && Nat.ble c.toNat 57)

/-- The relation "no space directly follows a space". -/
def noDoubleSpace (a b : Char) : Prop := a = ' ' → b ≠ ' '

instance (a b : Char) : Decidable (noDoubleSpace a b) :=
  inferInstanceAs (Decidable (a = ' ' → b ≠ ' '))

/-- The 5021-character haystack of C2's counterexample. -/
def c2hay : List Char := List.replicate 5020 'a' ++ ['b']

/-- The filler of C1's counterexample record. -/
def c1fill : List Char := List.replicate 5301 'a'

/-- The tail of C1's counterexample content: a space then the phrase twice. -/
def c1tail : List Char := [' ', 'z', 'q', ' ', 'z', 'q']

/-- The raw query of C1's counterexample (phrase mode: it contains a space). -/
def c1phrase : List Char := ['z', 'q', ' ', 'z', 'q']

/-- C1's counterexample record: 5301 filler characters push the phrase's
first occurrence in the haystack to index 5302. -/
def c1doc : Doc := ⟨"/it/I/1/1.html".toList, [], c1fill ++ c1tail⟩

/-- A small record for the witness of C1's amended theorem. -/
def c1wdoc : Doc := ⟨"/it/I/1/1.html".toList, [], ['b', 'a', 'y', 'e', 's']⟩

/-- A record used by the witness of C10. -/
def c10doc : Doc := ⟨"/it/I/2/3.html".toList, [], "teorema di Bayes".toList⟩

/-- A record whose haystack is nonempty; used against the empty-phrase query. -/
def c5doc : Doc := ⟨"/it/I/1/1.html".toList, [], ['x']⟩

/-- A record containing the phrase "ab cd"; used by the witness of C5. -/
def c5wdoc : Doc := ⟨"/it/I/1/1.html".toList, [], "xx ab cd".toList⟩

/-- A language home-page record; filtered out regardless of content. -/
def c6home : Doc := ⟨"/it/".toList, [], "teorema di Bayes".toList⟩

/-- A big-TOC record; filtered out regardless of content. -/
def c6toc : Doc := ⟨"/it/toc-big.html".toList, [], "teorema di Bayes".toList⟩

/-- An ordinary section record with the same content. -/
def c6sec : Doc := ⟨"/it/I/2/3.html".toList, [], "teorema di Bayes".toList⟩

/-- The higher-scoring record from chapter I/5. -/
def c7late : Doc := ⟨"/it/I/5/1.html".toList, [], "bayes bayes bayes bayes".toList⟩

/-- The lower-scoring record from chapter I/2. -/
def c7early : Doc := ⟨"/it/I/2/3.html".toList, [], "bayes".toList⟩

/-! ### Character-level lemmas -/


theorem char_eq_iff_toNat {c d : Char} : c = d ↔ c.toNat = d.toNat := by
  constructor
  · intro h; rw [h]
  · intro h
    exact Char.ofNat_toNat c ▸ Char.ofNat_toNat d ▸ congrArg Char.ofNat h

theorem char_toNat_ofNat {n : Nat} (h : n < 55296) : (Char.ofNat n).toNat = n := by
  unfold Char.ofNat
  rw [dif_pos (Or.inl h)]
  rfl

theorem baseAlnum_spec {c : Char} :
    baseAlnum c = true ↔ (97 ≤ c.toNat ∧ c.toNat ≤ 122) ∨ (48 ≤ c.toNat ∧ c.toNat ≤ 57) := by
  simp [baseAlnum, Nat.ble_eq]

theorem isLu_spec {c : Char} :
    isLu c = true ↔ (65 ≤ c.toNat ∧ c.toNat ≤ 90) ∨
      c.toNat ∈ ([192, 196, 199, 200, 201, 203, 204, 205, 206, 207, 209, 210, 211, 214, 217, 218, 220] : List Nat) := by
  simp [isLu, Nat.ble_eq, accentUppers]

theorem isLl_spec {c : Char} :
    isLl c = true ↔ (97 ≤ c.toNat ∧ c.toNat ≤ 122) ∨
      c.toNat ∈ ([224, 228, 231, 232, 233, 235, 236, 237, 238, 239, 241, 242, 243, 246, 249, 250, 252] : List Nat) := by
  simp [isLl, Nat.ble_eq, accentLowers, accentUppers]

theorem isNd_spec {c : Char} :
    isNd c = true ↔ 48 ≤ c.toNat ∧ c.toNat ≤ 57 := by
  simp [isNd, Nat.ble_eq]

theorem jsIsSpace_spec {c : Char} :
    jsIsSpace c = true ↔ c.toNat ∈ ([32, 9, 10, 13, 11, 12, 160, 0x2028, 0x2029, 0xFEFF] : List Nat) := by
  simp [jsIsSpace]
  tauto

theorem isCombMark_spec {c : Char} :
    isCombMark c = true ↔ 768 ≤ c.toNat ∧ c.toNat ≤ 879 := by
  simp [isCombMark, Nat.ble_eq]

theorem toNat_jsLower (c : Char) :
    (jsLower c).toNat = if isLu c = true then c.toNat + 32 else c.toNat := by
  unfold jsLower isLu
  split
  · have hb : c.toNat ≤ 220 := by
      rename_i h
      simp [Nat.ble_eq, accentUppers] at h
      omega
    exact char_toNat_ofNat (by omega)
  · rfl

theorem jsLower_not_upper {c : Char} (h : isLu c = false) : jsLower c = c := by
  unfold jsLower
  split
  · rename_i hc
    have hc' : isLu c = true := hc
    rw [h] at hc'
    exact absurd hc' (by simp)
  · rfl

theorem accentLowers_mem {n : Nat} :
    accentLowers.contains n = true ↔
      n ∈ ([224, 228, 231, 232, 233, 235, 236, 237, 238, 239, 241, 242, 243, 246, 249, 250, 252] : List Nat) := by
  simp [accentLowers, accentUppers]

theorem nfdChar_fix_of_not_accent {c : Char}
    (h : accentLowers.contains c.toNat = false) : nfdChar c = [c] := by
  rw [← Bool.not_eq_true, accentLowers_mem] at h
  simp only [List.mem_cons, List.not_mem_nil, or_false] at h
  unfold nfdChar
  iterate 17 rw [if_neg (by omega)]

theorem nfd_accent_chars {u : Char} (hu : accentLowers.contains u.toNat = true)
    {d : Char} (hd : d ∈ nfdChar u) : baseAlnum d = true ∨ isCombMark d = true := by
  rw [accentLowers_mem] at hu
  simp only [List.mem_cons, List.not_mem_nil, or_false] at hu
  unfold nfdChar at hd
  rcases hu with h | h | h | h | h | h | h | h | h | h | h | h | h | h | h | h | h <;>
    (repeat
      first
        | rw [if_pos (by omega)] at hd
        | rw [if_neg (by omega)] at hd) <;>
    simp only [List.mem_cons, List.not_mem_nil, or_false] at hd <;>
    (rcases hd with rfl | rfl
     · exact Or.inl (by decide)
     · exact Or.inr (by decide))

theorem baseAlnum_fix {c : Char} (h : baseAlnum c = true) :
    jsLower c = c ∧ nfdChar c = [c] ∧ isCombMark c = false ∧ isLN c = true ∧
      jsIsSpace c = false ∧ c ≠ ' ' := by
  rw [baseAlnum_spec] at h
  refine ⟨?_, ?_, ?_, ?_, ?_, ?_⟩
  · refine jsLower_not_upper ?_
    rw [← Bool.not_eq_true, isLu_spec]
    simp only [List.mem_cons, List.not_mem_nil, or_false]
    omega
  · refine nfdChar_fix_of_not_accent ?_
    rw [← Bool.not_eq_true, accentLowers_mem]
    simp only [List.mem_cons, List.not_mem_nil, or_false]
    omega
  · rw [← Bool.not_eq_true, isCombMark_spec]; omega
  · unfold isLN
    rw [Bool.or_eq_true, Bool.or_eq_true, isLu_spec, isLl_spec, isNd_spec]
    simp only [List.mem_cons, List.not_mem_nil, or_false]
    omega
  · rw [← Bool.not_eq_true, jsIsSpace_spec]
    simp only [List.mem_cons, List.not_mem_nil, or_false]
    omega
  · rw [Ne, char_eq_iff_toNat]
    have h32 : (' ').toNat = 32 := rfl
    omega

theorem space_fix :
    jsLower ' ' = ' ' ∧ nfdChar ' ' = [' '] ∧ isCombMark ' ' = false ∧
      isLN ' ' = false ∧ jsIsSpace ' ' = true := by
  refine ⟨?_, ?_, ?_, ?_, ?_⟩ <;> decide

theorem pipeChar {e d : Char} (hd : d ∈ nfdChar (jsLower e))
    (hm : isCombMark d = false) (hLN : isLN d = true) : baseAlnum d = true := by
  by_cases hacc : accentLowers.contains (jsLower e).toNat = true
  · rcases nfd_accent_chars hacc hd with hb | hc
    · exact hb
    · rw [hc] at hm; exact absurd hm (by simp)
  · rw [Bool.not_eq_true] at hacc
    rw [nfdChar_fix_of_not_accent hacc] at hd
    simp only [List.mem_cons, List.not_mem_nil, or_false] at hd
    subst hd
    have htn := toNat_jsLower e
    have hlu : isLu (jsLower e) = false := by
      rw [← Bool.not_eq_true, isLu_spec]
      simp only [List.mem_cons, List.not_mem_nil, or_false]
      by_cases hup : isLu e = true
      · rw [if_pos hup] at htn
        have := isLu_spec.mp hup
        simp only [List.mem_cons, List.not_mem_nil, or_false] at this
        omega
      · rw [if_neg hup] at htn
        rw [isLu_spec] at hup
        simp only [List.mem_cons, List.not_mem_nil, or_false] at hup ⊢
        omega
    unfold isLN at hLN
    rw [Bool.or_eq_true, Bool.or_eq_true] at hLN
    rcases hLN with (hLN | hLN) | hLN
    · rw [hlu] at hLN; exact absurd hLN (by simp)
    · rw [isLl_spec] at hLN
      rw [← Bool.not_eq_true, accentLowers_mem] at hacc
      rcases hLN with hascii | haccent
      · rw [baseAlnum_spec]; omega
      · exact absurd haccent hacc
    · rw [isNd_spec] at hLN
      rw [baseAlnum_spec]; omega
theorem isLN_spec {c : Char} :
    isLN c = true ↔
      (65 ≤ c.toNat ∧ c.toNat ≤ 90) ∨ (97 ≤ c.toNat ∧ c.toNat ≤ 122) ∨
      (48 ≤ c.toNat ∧ c.toNat ≤ 57) ∨
      c.toNat ∈ ([192, 196, 199, 200, 201, 203, 204, 205, 206, 207, 209, 210, 211, 214, 217, 218, 220] : List Nat) ∨
      c.toNat ∈ ([224, 228, 231, 232, 233, 235, 236, 237, 238, 239, 241, 242, 243, 246, 249, 250, 252] : List Nat) := by
  unfold isLN
  rw [Bool.or_eq_true, Bool.or_eq_true, isLu_spec, isLl_spec, isNd_spec]
  tauto

theorem isLN_ne_space {c : Char} (h : isLN c = true) : c ≠ ' ' := by
  rw [isLN_spec] at h
  simp only [List.mem_cons, List.not_mem_nil, or_false] at h
  rw [Ne, char_eq_iff_toNat]
  have h32 : (' ').toNat = 32 := rfl
  omega

theorem isLN_not_space {c : Char} (h : isLN c = true) : jsIsSpace c = false := by
  rw [isLN_spec] at h
  rw [← Bool.not_eq_true, jsIsSpace_spec]
  simp only [List.mem_cons, List.not_mem_nil, or_false] at h ⊢
  omega

theorem isLN_space : isLN ' ' = false := by decide

theorem map_fix {f : Char → Char} {s : List Char} (h : ∀ c ∈ s, f c = c) :
    s.map f = s := by
  induction s with
  | nil => rfl
  | cons c rest ih =>
    simp only [List.map_cons, h c (by simp)]
    rw [ih (fun d hd => h d (List.mem_cons_of_mem c hd))]

theorem nfdStr_fix {s : List Char} (h : ∀ c ∈ s, nfdChar c = [c]) : nfdStr s = s := by
  induction s with
  | nil => rfl
  | cons c rest ih =>
    rw [nfdStr, h c (by simp), ih (fun d hd => h d (List.mem_cons_of_mem c hd))]
    rfl

theorem mem_nfdStr {s : List Char} {d : Char} (hd : d ∈ nfdStr s) :
    ∃ c ∈ s, d ∈ nfdChar c := by
  induction s with
  | nil => exact absurd hd (by simp [nfdStr])
  | cons c rest ih =>
    rw [nfdStr, List.mem_append] at hd
    rcases hd with hd | hd
    · exact ⟨c, by simp, hd⟩
    · rcases ih hd with ⟨e, he, hde⟩
      exact ⟨e, List.mem_cons_of_mem c he, hde⟩

theorem replNonLN_head_LN {d : Char} {rest : List Char} (h : isLN d = true) :
    (replNonLN (d :: rest)).head? = some d := by
  cases rest with
  | nil => simp [replNonLN, h]
  | cons e r => simp [replNonLN, h]

theorem replNonLN_chain (s : List Char) :
    List.Chain' noDoubleSpace (replNonLN s) := by
  induction s using replNonLN.induct with
  | case1 => simp [replNonLN]
  | case2 c hc => rw [replNonLN, if_pos hc]; exact List.chain'_singleton _
  | case3 c hc => rw [replNonLN, if_neg hc]; exact List.chain'_singleton _
  | case4 c d rest h ih => rw [replNonLN, if_pos h]; exact ih
  | case5 c d rest h ih =>
    rw [replNonLN, if_neg h]
    rw [List.chain'_cons']
    refine ⟨?_, ih⟩
    intro y hy
    by_cases hc : isLN c = true
    · rw [if_pos hc]
      intro hsp
      exact absurd hsp (isLN_ne_space hc)
    · rw [Bool.not_eq_true] at hc
      have hd : isLN d = true := by
        by_cases hdt : isLN d = true
        · exact hdt
        · rw [Bool.not_eq_true] at hdt
          exact absurd (by rw [hc, hdt]; rfl) h
      rw [replNonLN_head_LN hd] at hy
      simp only [Option.mem_def, Option.some.injEq] at hy
      subst hy
      intro _
      exact isLN_ne_space hd

theorem mem_replNonLN {s : List Char} {d : Char} (hd : d ∈ replNonLN s) :
    (isLN d = true ∧ d ∈ s) ∨ d = ' ' := by
  induction s using replNonLN.induct with
  | case1 => exact absurd hd (by simp [replNonLN])
  | case2 c hc =>
    rw [replNonLN, if_pos hc] at hd
    simp only [List.mem_singleton] at hd
    subst hd
    exact Or.inl ⟨hc, by simp⟩
  | case3 c hc =>
    rw [replNonLN, if_neg hc] at hd
    simp only [List.mem_singleton] at hd
    exact Or.inr hd
  | case4 c d' rest h ih =>
    rw [replNonLN, if_pos h] at hd
    rcases ih hd with ⟨h1, h2⟩ | h1
    · exact Or.inl ⟨h1, List.mem_cons_of_mem c h2⟩
    · exact Or.inr h1
  | case5 c d' rest h ih =>
    rw [replNonLN, if_neg h] at hd
    by_cases hc : isLN c = true
    · rw [if_pos hc] at hd
      rcases List.mem_cons.mp hd with rfl | hd2
      · exact Or.inl ⟨hc, by simp⟩
      · rcases ih hd2 with ⟨h1, h2⟩ | h1
        · exact Or.inl ⟨h1, List.mem_cons_of_mem c h2⟩
        · exact Or.inr h1
    · rw [if_neg hc] at hd
      rcases List.mem_cons.mp hd with rfl | hd2
      · exact Or.inr rfl
      · rcases ih hd2 with ⟨h1, h2⟩ | h1
        · exact Or.inl ⟨h1, List.mem_cons_of_mem c h2⟩
        · exact Or.inr h1

theorem replNonLN_fix {s : List Char}
    (hchars : ∀ c ∈ s, isLN c = true ∨ c = ' ')
    (hchain : List.Chain' noDoubleSpace s) : replNonLN s = s := by
  induction s using replNonLN.induct with
  | case1 => rfl
  | case2 c hc => rw [replNonLN, if_pos hc]
  | case3 c hc =>
    rcases hchars c (by simp) with h1 | h1
    · exact absurd h1 hc
    · rw [replNonLN, if_neg hc, h1]
  | case4 c d rest h ih =>
    exfalso
    rw [Bool.and_eq_true, Bool.not_eq_true', Bool.not_eq_true'] at h
    have hc : c = ' ' := (hchars c (by simp)).resolve_left (by simp [h.1])
    have hd : d = ' ' := (hchars d (by simp)).resolve_left (by simp [h.2])
    rw [List.chain'_cons] at hchain
    exact hchain.1 hc hd
  | case5 c d rest h ih =>
    rw [replNonLN, if_neg h]
    have ht := ih (fun e he => hchars e (List.mem_cons_of_mem c he))
      (List.chain'_cons.mp hchain).2
    rw [ht]
    rcases hchars c (by simp) with hc | hc
    · rw [if_pos hc]
    · rw [hc, if_neg (by rw [isLN_space]; simp)]
theorem collapseWS_head_nonspace {d : Char} {rest : List Char} (h : jsIsSpace d = false) :
    (collapseWS (d :: rest)).head? = some d := by
  cases rest with
  | nil => simp [collapseWS, h]
  | cons e r => simp [collapseWS, h]

theorem collapseWS_ne_nil {s : List Char} (h : s ≠ []) : collapseWS s ≠ [] := by
  induction s using collapseWS.induct with
  | case1 => exact absurd rfl h
  | case2 c hc => rw [collapseWS, if_pos hc]; simp
  | case3 c hc => rw [collapseWS, if_neg hc]; simp
  | case4 c d rest hcd ih => rw [collapseWS, if_pos hcd]; exact ih (by simp)
  | case5 c d rest hcd ih => rw [collapseWS, if_neg hcd]; simp

theorem collapseWS_chain (s : List Char) :
    List.Chain' noDoubleSpace (collapseWS s) := by
  induction s using collapseWS.induct with
  | case1 => simp [collapseWS]
  | case2 c hc => rw [collapseWS, if_pos hc]; exact List.chain'_singleton _
  | case3 c hc => rw [collapseWS, if_neg hc]; exact List.chain'_singleton _
  | case4 c d rest h ih => rw [collapseWS, if_pos h]; exact ih
  | case5 c d rest h ih =>
    rw [collapseWS, if_neg h]
    rw [List.chain'_cons']
    refine ⟨?_, ih⟩
    intro y hy
    by_cases hc : jsIsSpace c = true
    · have hd : jsIsSpace d = false := by
        by_cases hdt : jsIsSpace d = true
        · exact absurd (by rw [hc, hdt]; rfl) h
        · exact Bool.not_eq_true _ ▸ hdt
      rw [collapseWS_head_nonspace hd] at hy
      simp only [Option.mem_def, Option.some.injEq] at hy
      subst hy
      intro _
      intro hde
      rw [hde] at hd
      exact absurd hd (by decide)
    · rw [Bool.not_eq_true] at hc
      rw [if_neg (by rw [hc]; simp)]
      intro hce
      rw [hce] at hc
      exact absurd hc (by decide)

theorem mem_collapseWS {s : List Char} {d : Char} (hd : d ∈ collapseWS s) :
    d ∈ s ∨ d = ' ' := by
  induction s using collapseWS.induct with
  | case1 => exact absurd hd (by simp [collapseWS])
  | case2 c hc =>
    rw [collapseWS, if_pos hc] at hd
    simp only [List.mem_singleton] at hd
    exact Or.inr hd
  | case3 c hc =>
    rw [collapseWS, if_neg hc] at hd
    simp only [List.mem_singleton] at hd
    exact Or.inl (by simp [hd])
  | case4 c d' rest h ih =>
    rw [collapseWS, if_pos h] at hd
    rcases ih hd with h1 | h1
    · exact Or.inl (List.mem_cons_of_mem c h1)
    · exact Or.inr h1
  | case5 c d' rest h ih =>
    rw [collapseWS, if_neg h] at hd
    by_cases hc : jsIsSpace c = true
    · rw [if_pos hc] at hd
      rcases List.mem_cons.mp hd with rfl | hd2
      · exact Or.inr rfl
      · rcases ih hd2 with h1 | h1
        · exact Or.inl (List.mem_cons_of_mem c h1)
        · exact Or.inr h1
    · rw [if_neg hc] at hd
      rcases List.mem_cons.mp hd with rfl | hd2
      · exact Or.inl (by simp)
      · rcases ih hd2 with h1 | h1
        · exact Or.inl (List.mem_cons_of_mem c h1)
        · exact Or.inr h1

theorem collapseWS_fix {s : List Char}
    (hchars : ∀ c ∈ s, jsIsSpace c = false ∨ c = ' ')
    (hchain : List.Chain' noDoubleSpace s) : collapseWS s = s := by
  induction s using collapseWS.induct with
  | case1 => rfl
  | case2 c hc =>
    rcases hchars c (by simp) with h1 | h1
    · rw [hc] at h1; exact absurd h1 (by simp)
    · rw [collapseWS, if_pos hc, h1]
  | case3 c hc => rw [collapseWS, if_neg hc]
  | case4 c d rest h ih =>
    exfalso
    rw [Bool.and_eq_true] at h
    have hc : c = ' ' := (hchars c (by simp)).resolve_left (by simp [h.1])
    have hd : d = ' ' := (hchars d (by simp)).resolve_left (by simp [h.2])
    rw [List.chain'_cons] at hchain
    exact hchain.1 hc hd
  | case5 c d rest h ih =>
    rw [collapseWS, if_neg h]
    have ht := ih (fun e he => hchars e (List.mem_cons_of_mem c he))
      (List.chain'_cons.mp hchain).2
    rw [ht]
    by_cases hc : jsIsSpace c = true
    · rcases hchars c (by simp) with h1 | h1
      · rw [hc] at h1; exact absurd h1 (by simp)
      · rw [if_pos hc, h1]
    · rw [if_neg hc]

theorem collapseWS_last {s : List Char} {c : Char}
    (h : s.getLast? = some c) (hc : jsIsSpace c = false) :
    (collapseWS s).getLast? = some c := by
  induction s using collapseWS.induct with
  | case1 => simp at h
  | case2 c' hc' =>
    simp only [List.getLast?_singleton, Option.some.injEq] at h
    subst h
    rw [hc'] at hc
    exact absurd hc (by simp)
  | case3 c' hc' =>
    simp only [List.getLast?_singleton, Option.some.injEq] at h
    subst h
    rw [collapseWS, if_neg hc']
    simp
  | case4 c' d rest hcd ih =>
    rw [collapseWS, if_pos hcd]
    refine ih ?_
    rw [List.getLast?_cons_cons] at h
    exact h
  | case5 c' d rest hcd ih =>
    rw [collapseWS, if_neg hcd]
    rw [List.getLast?_cons_cons] at h
    have hrec := ih h
    have hnn : collapseWS (d :: rest) ≠ [] := collapseWS_ne_nil (by simp)
    rcases List.exists_cons_of_ne_nil hnn with ⟨y, ys, hys⟩
    rw [hys] at hrec ⊢
    rw [List.getLast?_cons_cons]
    exact hrec
theorem dropWhile_head_not {p : Char → Bool} {l : List Char} {c : Char}
    (h : (l.dropWhile p).head? = some c) : p c = false := by
  induction l with
  | nil => simp at h
  | cons d t ih =>
    rw [List.dropWhile] at h
    by_cases hp : p d = true
    · rw [hp] at h
      exact ih h
    · rw [Bool.not_eq_true] at hp
      rw [hp] at h
      simp only [List.head?_cons, Option.some.injEq] at h
      subst h
      exact hp

theorem dropWhile_eq_self {p : Char → Bool} {l : List Char}
    (h : ∀ c, l.head? = some c → p c = false) : l.dropWhile p = l := by
  cases l with
  | nil => rfl
  | cons c t =>
    rw [List.dropWhile, h c (by simp)]

theorem getLast?_of_suffix {z w : List Char} (hz : z <:+ w) (hne : z ≠ []) :
    z.getLast? = w.getLast? := by
  rcases hz with ⟨u, rfl⟩
  rw [List.getLast?_append]
  rcases List.exists_cons_of_ne_nil hne with ⟨a, t, rfl⟩
  rcases (a :: t).getLast?.eq_none_or_eq_some with hn | ⟨b, hb⟩
  · rw [List.getLast?_eq_none_iff] at hn
    simp at hn
  · rw [hb]
    rfl

theorem jsTrim_head {s : List Char} {c : Char}
    (h : (jsTrim s).head? = some c) : jsIsSpace c = false := by
  unfold jsTrim at h
  rw [List.head?_reverse] at h
  have hsuf : ((s.dropWhile jsIsSpace).reverse.dropWhile jsIsSpace) <:+
      (s.dropWhile jsIsSpace).reverse := List.dropWhile_suffix jsIsSpace
  have hz := getLast?_of_suffix hsuf (by intro he; rw [he] at h; simp at h)
  rw [h] at hz
  rw [List.getLast?_reverse] at hz
  exact dropWhile_head_not hz.symm

theorem jsTrim_last {s : List Char} {c : Char}
    (h : (jsTrim s).getLast? = some c) : jsIsSpace c = false := by
  unfold jsTrim at h
  rw [List.getLast?_reverse] at h
  exact dropWhile_head_not h

theorem jsTrim_fix {s : List Char}
    (hh : ∀ c, s.head? = some c → jsIsSpace c = false)
    (hl : ∀ c, s.getLast? = some c → jsIsSpace c = false) : jsTrim s = s := by
  unfold jsTrim
  rw [dropWhile_eq_self hh]
  rw [dropWhile_eq_self (fun c hc => hl c (by rwa [List.head?_reverse] at hc))]
  exact List.reverse_reverse s

theorem mem_jsTrim {s : List Char} {d : Char} (hd : d ∈ jsTrim s) : d ∈ s := by
  unfold jsTrim at hd
  rw [List.mem_reverse] at hd
  have h1 := ((List.dropWhile_suffix jsIsSpace).sublist).mem hd
  rw [List.mem_reverse] at h1
  exact ((List.dropWhile_suffix jsIsSpace).sublist).mem h1

theorem jsTrim_chain {s : List Char} (h : List.Chain' noDoubleSpace s) :
    List.Chain' noDoubleSpace (jsTrim s) := by
  unfold jsTrim
  rw [List.chain'_reverse]
  refine List.Chain'.suffix ?_ (List.dropWhile_suffix jsIsSpace)
  rw [List.chain'_reverse]
  exact List.Chain'.suffix h (List.dropWhile_suffix jsIsSpace)

theorem normalize_chars {s : List Char} : ∀ c ∈ normalize s, baseAlnum c = true ∨ c = ' ' := by
  intro c hc
  unfold normalize at hc
  rcases mem_collapseWS hc with h1 | h1
  · have h2 := mem_jsTrim h1
    rcases mem_replNonLN h2 with ⟨hLN, h3⟩ | h3
    · rw [List.mem_filter] at h3
      obtain ⟨h4, h5⟩ := h3
      rcases mem_nfdStr h4 with ⟨e', he', hce⟩
      rw [List.mem_map] at he'
      obtain ⟨e, _, rfl⟩ := he'
      exact Or.inl (pipeChar hce (by simpa using h5) hLN)
    · exact Or.inr h3
  · exact Or.inr h1

theorem normalize_chain (s : List Char) : List.Chain' noDoubleSpace (normalize s) := by
  unfold normalize
  exact collapseWS_chain _

theorem normalize_head {s : List Char} {c : Char}
    (h : (normalize s).head? = some c) : jsIsSpace c = false := by
  unfold normalize at h
  generalize hy : jsTrim (replNonLN ((nfdStr (s.map jsLower)).filter (fun c => !isCombMark c))) = y at h
  cases y with
  | nil => simp [collapseWS] at h
  | cons d r =>
    have hd : jsIsSpace d = false := jsTrim_head (by rw [hy]; simp)
    rw [collapseWS_head_nonspace hd] at h
    simp only [Option.some.injEq] at h
    subst h
    exact hd

theorem normalize_last {s : List Char} {c : Char}
    (h : (normalize s).getLast? = some c) : jsIsSpace c = false := by
  unfold normalize at h
  generalize hy : jsTrim (replNonLN ((nfdStr (s.map jsLower)).filter (fun c => !isCombMark c))) = y at h
  cases y with
  | nil => simp [collapseWS] at h
  | cons d r =>
    rcases (d :: r).getLast?.eq_none_or_eq_some with hn | ⟨b, hb⟩
    · rw [List.getLast?_eq_none_iff] at hn; simp at hn
    · have hbs : jsIsSpace b = false := jsTrim_last (by rw [hy]; exact hb)
      rw [collapseWS_last hb hbs] at h
      simp only [Option.some.injEq] at h
      subst h
      exact hbs

theorem normalize_canon_fix {y : List Char}
    (hchars : ∀ c ∈ y, baseAlnum c = true ∨ c = ' ')
    (hchain : List.Chain' noDoubleSpace y)
    (hh : ∀ c, y.head? = some c → jsIsSpace c = false)
    (hl : ∀ c, y.getLast? = some c → jsIsSpace c = false) :
    normalize y = y := by
  unfold normalize
  have e1 : y.map jsLower = y := map_fix (fun c hc => by
    rcases hchars c hc with h | h
    · exact (baseAlnum_fix h).1
    · rw [h]; exact space_fix.1)
  rw [e1]
  have e2 : nfdStr y = y := nfdStr_fix (fun c hc => by
    rcases hchars c hc with h | h
    · exact (baseAlnum_fix h).2.1
    · rw [h]; exact space_fix.2.1)
  rw [e2]
  have e3 : y.filter (fun c => !isCombMark c) = y := List.filter_eq_self.mpr (fun c hc => by
    rcases hchars c hc with h | h
    · rw [(baseAlnum_fix h).2.2.1]; rfl
    · rw [h, space_fix.2.2.1]; rfl)
  rw [e3]
  have e4 : replNonLN y = y := replNonLN_fix (fun c hc => by
    rcases hchars c hc with h | h
    · exact Or.inl (baseAlnum_fix h).2.2.2.1
    · exact Or.inr h) hchain
  rw [e4]
  rw [jsTrim_fix hh hl]
  exact collapseWS_fix (fun c hc => by
    rcases hchars c hc with h | h
    · exact Or.inl (baseAlnum_fix h).2.2.2.2.1
    · exact Or.inr h) hchain

/-- C9: `normalize` is idempotent: for all strings `s`,
`normalize(normalize(s)) = normalize(s)`. -/
theorem C9_normalize_idempotent (s : List Char) :
    normalize (normalize s) = normalize s :=
  normalize_canon_fix (normalize_chars) (normalize_chain s)
    (fun _ h => normalize_head h) (fun _ h => normalize_last h)

/-! ### Lemmas about `firstPrefixPos`, `strIndexOf` and `occCount` -/

theorem fpp_none_iff {needle s : List Char} :
    firstPrefixPos needle s = none ↔ ¬ needle <:+: s := by
  induction s with
  | nil =>
    rw [firstPrefixPos]
    rcases needle with _ | ⟨a, t⟩
    · simp
    · simp [List.infix_nil]
  | cons c rest ih =>
    rw [firstPrefixPos]
    by_cases hp : needle.isPrefixOf (c :: rest) = true
    · rw [if_pos hp]
      have hinf : needle <:+: c :: rest := ((List.isPrefixOf_iff_prefix).mp hp).isInfix
      constructor
      · intro h; simp at h
      · intro h; exact absurd hinf h
    · rw [if_neg hp]
      rw [List.isPrefixOf_iff_prefix] at hp
      simp only [Option.map_eq_none']
      rw [ih, List.infix_cons_iff]
      tauto

theorem fpp_some_prefix {needle s : List Char} {n : Nat}
    (h : firstPrefixPos needle s = some n) :
    needle <+: s.drop n := by
  induction s generalizing n with
  | nil =>
    rw [firstPrefixPos] at h
    by_cases he : needle.isEmpty = true
    · rw [if_pos he] at h
      simp only [Option.some.injEq] at h
      subst h
      rw [List.isEmpty_iff] at he
      simp [he]
    · rw [if_neg he] at h
      simp at h
  | cons c rest ih =>
    rw [firstPrefixPos] at h
    by_cases hp : needle.isPrefixOf (c :: rest) = true
    · rw [if_pos hp] at h
      simp only [Option.some.injEq] at h
      subst h
      exact (List.isPrefixOf_iff_prefix).mp hp
    · rw [if_neg hp] at h
      simp only [Option.map_eq_some'] at h
      rcases h with ⟨m, hm, rfl⟩
      rw [List.drop_succ_cons]
      exact ih hm

theorem fpp_some_min {needle s : List Char} {n : Nat}
    (h : firstPrefixPos needle s = some n) :
    ∀ m < n, ¬ needle <+: s.drop m := by
  induction s generalizing n with
  | nil =>
    rw [firstPrefixPos] at h
    by_cases he : needle.isEmpty = true
    · rw [if_pos he] at h
      simp only [Option.some.injEq] at h
      subst h
      omega
    · rw [if_neg he] at h
      simp at h
  | cons c rest ih =>
    rw [firstPrefixPos] at h
    by_cases hp : needle.isPrefixOf (c :: rest) = true
    · rw [if_pos hp] at h
      simp only [Option.some.injEq] at h
      omega
    · rw [if_neg hp] at h
      simp only [Option.map_eq_some'] at h
      rcases h with ⟨k, hk, rfl⟩
      intro m hm
      cases m with
      | zero =>
        rw [List.drop_zero]
        rw [List.isPrefixOf_iff_prefix] at hp
        exact hp
      | succ m' =>
        rw [List.drop_succ_cons]
        exact ih hk m' (by omega)

theorem strIndexOf_neg_one_iff {hay needle : List Char} :
    strIndexOf hay needle = -1 ↔ ¬ needle <:+: hay := by
  rw [strIndexOf]
  rcases hfpp : firstPrefixPos needle hay with _ | n
  · rw [fpp_none_iff] at hfpp
    simp [hfpp]
  · have hpre := fpp_some_prefix hfpp
    constructor
    · intro h; simp at h
    · intro h
      exact absurd (hpre.isInfix.trans (List.drop_suffix n hay).isInfix) h

theorem strIndexOf_cases (hay needle : List Char) :
    strIndexOf hay needle = -1 ∨ 0 ≤ strIndexOf hay needle := by
  rw [strIndexOf]
  rcases firstPrefixPos needle hay with _ | n
  · exact Or.inl rfl
  · right
    simp

theorem foldl_min_le_init (x : Int) (xs : List Int) : xs.foldl min x ≤ x := by
  induction xs generalizing x with
  | nil => simp
  | cons y ys ih =>
    rw [List.foldl_cons]
    exact le_trans (ih (min x y)) (min_le_left x y)

theorem foldl_min_le_mem {y : Int} {xs : List Int} (hy : y ∈ xs) (x : Int) :
    xs.foldl min x ≤ y := by
  induction xs generalizing x with
  | nil => simp at hy
  | cons z zs ih =>
    rw [List.foldl_cons]
    rcases List.mem_cons.mp hy with rfl | hy2
    · exact le_trans (foldl_min_le_init _ _) (min_le_right x y)
    · exact ih hy2 _

theorem foldl_min_mem (x : Int) (xs : List Int) : xs.foldl min x ∈ x :: xs := by
  induction xs generalizing x with
  | nil => simp
  | cons y ys ih =>
    rw [List.foldl_cons]
    rcases List.mem_cons.mp (ih (min x y)) with he | hmem
    · rcases min_cases x y with ⟨hm, _⟩ | ⟨hm, _⟩
      · rw [he, hm]
        exact List.mem_cons_self _ _
      · rw [he, hm]
        simp
    · simp [hmem]

theorem minIntList_spec {l : List Int} {m : Int} (h : minIntList l = some m) :
    m ∈ l ∧ ∀ x ∈ l, m ≤ x := by
  rcases l with _ | ⟨x, xs⟩
  · simp [minIntList] at h
  · rw [minIntList] at h
    simp only [Option.some.injEq] at h
    subst h
    refine ⟨foldl_min_mem x xs, ?_⟩
    intro y hy
    rcases List.mem_cons.mp hy with rfl | hy2
    · exact foldl_min_le_init _ _
    · exact foldl_min_le_mem hy2 _

theorem minIntList_isSome {l : List Int} (h : l ≠ []) : ∃ m, minIntList l = some m := by
  rcases l with _ | ⟨x, xs⟩
  · exact absurd rfl h
  · exact ⟨_, rfl⟩

/-! ### C2: the AND scorer -/

theorem fpp_replicate_skip {needle : List Char} {h0 : Char} (hh : needle.head? = some h0)
    {a : Char} (hne : h0 ≠ a) (n : Nat) (s : List Char) :
    firstPrefixPos needle (List.replicate n a ++ s) =
      (firstPrefixPos needle s).map (· + n) := by
  induction n with
  | zero =>
    simp only [List.replicate_zero, List.nil_append]
    cases hf : firstPrefixPos needle s <;> simp [hf]
  | succ k ih =>
    rw [List.replicate_succ, List.cons_append, firstPrefixPos, if_neg ?hnp, ih]
    case hnp =>
      rcases needle with _ | ⟨b, t⟩
      · simp at hh
      · simp only [List.head?_cons, Option.some.injEq] at hh
        subst hh
        intro hp
        have := (List.isPrefixOf_iff_prefix.mp hp)
        rw [List.cons_prefix_cons] at this
        exact hne this.1
    cases hf : firstPrefixPos needle s
    · simp
    · simp
      omega

theorem occFuel_nil {needle : List Char} (hne : needle ≠ []) (fuel : Nat) :
    occFuel needle fuel [] = 0 := by
  cases fuel with
  | zero => rfl
  | succ f =>
    rw [occFuel]
    have hfpp : firstPrefixPos needle [] = none := by
      rw [firstPrefixPos, if_neg (by simpa [List.isEmpty_iff] using hne)]
    rw [hfpp]

theorem c2_fpp : firstPrefixPos ['b'] c2hay = some 5020 := by
  rw [c2hay, @fpp_replicate_skip ['b'] 'b' (by decide) 'a' (by decide) 5020 ['b']]
  rw [show firstPrefixPos ['b'] ['b'] = some 0 from by decide]
  rfl

theorem c2_strIndexOf : strIndexOf c2hay ['b'] = 5020 := by
  rw [strIndexOf, c2_fpp]
  rfl

theorem c2hay_length : c2hay.length = 5021 := by
  rw [c2hay, List.length_append, List.length_replicate]
  rfl

theorem c2_occ : occCount c2hay ['b'] = 1 := by
  have hdrop : c2hay.drop (5020 + List.length ['b']) = [] := by
    refine List.drop_eq_nil_of_le ?_
    rw [c2hay_length]
    simp
  rw [occCount, if_neg ?hne]
  case hne =>
    have : c2hay.length = 5021 := c2hay_length
    intro hcon
    rw [Bool.or_eq_true] at hcon
    rcases hcon with hcon | hcon
    · rw [List.isEmpty_iff] at hcon
      rw [hcon] at this
      simp at this
    · simp at hcon
  rw [c2hay_length, show (5021 : Nat) = 5020 + 1 from rfl, occFuel, c2_fpp]
  simp only []
  rw [hdrop, occFuel_nil (by simp)]

/-- C2, counterexample: in the haystack of 5020 `a`s followed by `b`, the
single non-empty token `b` occurs (its index is 5020, not -1), yet
`scoreMatchAND` returns the no-match sentinel `-1`, because
`(5000 - 5020) + 1*20 = 0` fails the `score > 0` floor. -/
theorem C2_counterexample :
    (∀ t ∈ [['b']], t ≠ [] → ¬ strIndexOf c2hay t = -1) ∧
    scoreMatchAND c2hay [['b']] = -1 := by
  constructor
  · intro t ht _
    simp only [List.mem_singleton] at ht
    subst ht
    rw [c2_strIndexOf]
    decide
  · unfold scoreMatchAND
    rw [if_neg]
    · simp only [List.map_cons, List.map_nil, c2_strIndexOf, c2_occ, List.filter_cons, List.filter_nil]
      norm_num [minIntList]
    · simp only [List.any_cons, List.any_nil, c2_strIndexOf]
      decide

/-- C2, amended: if the token list is non-empty, every non-empty token occurs
in the haystack, and some token first occurs before index 5000 (as always
happens for haystacks shorter than 5000), then `scoreMatchAND` is at least 1;
if some non-empty token is absent, it returns the sentinel `-1`.  (When every
token occurs but only at indices past `5000 + 20*occurrences`, the defensive
floor fires and the sentinel is returned even though all tokens occur; see
the counterexample.) -/
theorem C2_amended (hay : List Char) (tokens : List (List Char)) :
    (tokens ≠ [] →
      (∀ t ∈ tokens, t ≠ [] → strIndexOf hay t ≠ -1) →
      (∃ t ∈ tokens, 0 ≤ strIndexOf hay t ∧ strIndexOf hay t < 5000) →
      1 ≤ scoreMatchAND hay tokens) ∧
    ((∃ t ∈ tokens, t ≠ [] ∧ strIndexOf hay t = -1) → scoreMatchAND hay tokens = -1) := by
  constructor
  · intro hne hall hex
    rcases hex with ⟨t0, ht0, h0nonneg, h0lt⟩
    unfold scoreMatchAND
    rw [if_neg]
    swap
    · intro hcond
      rw [List.any_eq_true] at hcond
      rcases hcond with ⟨t, ht, hcontra⟩
      rw [Bool.and_eq_true] at hcontra
      obtain ⟨h1, h2⟩ := hcontra
      rw [beq_iff_eq] at h2
      rw [Bool.not_eq_true'] at h1
      refine hall t ht ?_ h2
      intro he
      rw [he] at h1
      simp at h1
    · have hmem : strIndexOf hay t0 ∈
          (tokens.map (fun t => strIndexOf hay t)).filter (fun i => decide (0 ≤ i)) := by
        rw [List.mem_filter]
        exact ⟨List.mem_map_of_mem _ ht0, by simpa using h0nonneg⟩
      obtain ⟨m, hm⟩ := minIntList_isSome (List.ne_nil_of_mem hmem)
      rw [hm]
      obtain ⟨hmmem, hmle⟩ := minIntList_spec hm
      have hm5000 : m < 5000 := lt_of_le_of_lt (hmle _ hmem) h0lt
      have hsum : 0 ≤ (tokens.map (fun t => (occCount hay t : Int) * 20)).sum := by
        refine List.sum_nonneg ?_
        intro x hx
        rw [List.mem_map] at hx
        rcases hx with ⟨t, _, rfl⟩
        positivity
      have hscore : 1 ≤ (5000 - m) + (tokens.map (fun t => (occCount hay t : Int) * 20)).sum := by
        omega
      split
      · rename_i heq
        simp at heq
      · rename_i idx heq
        simp only [Option.some.injEq] at heq
        subst heq
        rw [if_pos (by omega)]
        exact hscore
  · intro hex
    rcases hex with ⟨t0, ht0, htne, hidx⟩
    unfold scoreMatchAND
    rw [if_pos]
    rw [List.any_eq_true]
    refine ⟨t0, ht0, ?_⟩
    rw [Bool.and_eq_true]
    constructor
    · simpa [List.isEmpty_iff] using htne
    · simpa using hidx

/-- Witness for C2's amended theorem at concrete inputs. -/
theorem C2_amended_witness :
    1 ≤ scoreMatchAND ("abx".toList) [("x".toList)] ∧
    scoreMatchAND ("ab".toList) [("x".toList)] = -1 :=
  ⟨(C2_amended ("abx".toList) [("x".toList)]).1 (by simp) (by decide)
      ⟨"x".toList, by simp, by decide, by decide⟩,
   (C2_amended ("ab".toList) [("x".toList)]).2 ⟨"x".toList, by simp, by decide, by decide⟩⟩

/-! ### Identity lemmas for the sanitizer passes -/

theorem isPrefixOf_false_of_head {p s : List Char} {h0 : Char}
    (hp : p.head? = some h0) (hs : h0 ∉ s) : ¬ p.isPrefixOf s = true := by
  intro hpre
  rcases p with _ | ⟨a, t⟩
  · simp at hp
  · simp only [List.head?_cons, Option.some.injEq] at hp
    subst hp
    rw [List.isPrefixOf_iff_prefix] at hpre
    rcases s with _ | ⟨c, rest⟩
    · simp at hpre
    · rw [List.cons_prefix_cons] at hpre
      exact hs (by rw [hpre.1]; exact List.mem_cons_self c rest)

theorem replDelimFuel_id {openT closeT repl : List Char} {h0 : Char}
    (hh : openT.head? = some h0) :
    ∀ (fuel : Nat) (s : List Char), h0 ∉ s →
      replDelimFuel openT closeT repl fuel s = s := by
  intro fuel
  induction fuel with
  | zero => intro s _; rfl
  | succ f ih =>
    intro s hs
    cases s with
    | nil => rfl
    | cons c rest =>
      rw [replDelimFuel, if_neg (isPrefixOf_false_of_head hh hs)]
      rw [ih rest (fun hm => hs (List.mem_cons_of_mem _ hm))]

theorem beginTok_head (env : List Char) : (beginTok env).head? = some '\\' := by
  rw [beginTok]
  rfl

theorem tryGatherDelim_none {openLit closeLit s : List Char}
    (ho : openLit.head? = some '\\') (hs : '\\' ∉ s) :
    tryGatherDelim openLit closeLit s = none := by
  unfold tryGatherDelim
  rw [if_neg (isPrefixOf_false_of_head ho hs)]

theorem gatherDelimFuel_id {openLit closeLit : List Char}
    (ho : openLit.head? = some '\\') :
    ∀ (fuel : Nat) (s : List Char), '\\' ∉ s →
      gatherDelimFuel openLit closeLit fuel s = s := by
  intro fuel
  induction fuel with
  | zero => intro s _; rfl
  | succ f ih =>
    intro s hs
    cases s with
    | nil => rfl
    | cons c rest =>
      rw [gatherDelimFuel, tryGatherDelim_none ho hs]
      rw [ih rest (fun hm => hs (List.mem_cons_of_mem _ hm))]

theorem tryEnvBare_none {env s : List Char} (hs : '\\' ∉ s) :
    tryEnvBare env s = none := by
  unfold tryEnvBare
  rw [if_neg (isPrefixOf_false_of_head (beginTok_head _) hs)]

theorem tryGatherBare_none {s : List Char} (hs : '\\' ∉ s) :
    tryGatherBare s = none := by
  unfold tryGatherBare
  rw [tryEnvBare_none hs, tryEnvBare_none hs]

theorem gatherBareFuel_id :
    ∀ (fuel : Nat) (s : List Char), '\\' ∉ s → gatherBareFuel fuel s = s := by
  intro fuel
  induction fuel with
  | zero => intro s _; rfl
  | succ f ih =>
    intro s hs
    cases s with
    | nil => rfl
    | cons c rest =>
      rw [gatherBareFuel, tryGatherBare_none hs]
      rw [ih rest (fun hm => hs (List.mem_cons_of_mem _ hm))]

theorem protectFuel_id :
    ∀ (fuel n : Nat) (s : List Char), '$' ∉ s → protectFuel fuel n s = (s, []) := by
  intro fuel
  induction fuel with
  | zero => intro n s _; rfl
  | succ f ih =>
    intro n s hs
    cases s with
    | nil => rfl
    | cons c rest =>
      rw [protectFuel]
      rw [if_neg (fun he => hs (by rw [he]; exact List.mem_cons_self _ _))]
      rw [ih n rest (fun hm => hs (List.mem_cons_of_mem _ hm))]

theorem heurA_id {s : List Char} (h : ∀ c ∈ s, isLu c = false) : heurA s = s := by
  induction s using heurA.induct with
  | case1 => rfl
  | case2 c => rfl
  | case3 c d rest hcond ih =>
    exfalso
    rw [Bool.and_eq_true] at hcond
    rw [h d (by simp)] at hcond
    exact absurd hcond.2 (by simp)
  | case4 c d rest hcond ih =>
    rw [heurA, if_neg hcond, ih (fun e he => h e (List.mem_cons_of_mem _ he))]

theorem heurB_id {s : List Char} (h : ∀ c ∈ s, isLu c = false) : heurB s = s := by
  induction s using heurB.induct with
  | case1 c d e rest hcond ih =>
    exfalso
    rw [Bool.and_eq_true, Bool.and_eq_true] at hcond
    rw [h d (by simp)] at hcond
    exact absurd hcond.1.2 (by simp)
  | case2 c d e rest hcond ih =>
    rw [heurB, if_neg hcond, ih (fun x hx => h x (List.mem_cons_of_mem _ hx))]
  | case3 s hshape =>
    rcases s with _ | ⟨a, _ | ⟨b, _ | ⟨c, t⟩⟩⟩
    · rfl
    · rfl
    · rfl
    · exact (hshape a b c t rfl).elim

theorem restoreAux_nil (t : List Char) (i : Nat) : restoreAux t i [] = t := rfl

/-! ### C1: phrase-mode records can carry non-positive scores -/

theorem chain'_replicate_self {R : Char → Char → Prop} {a : Char} (h : R a a) (n : Nat) :
    List.Chain' R (List.replicate n a) := by
  induction n with
  | zero => simp
  | succ m ih =>
    rw [List.replicate_succ, List.chain'_cons']
    refine ⟨?_, ih⟩
    intro y hy
    rw [List.head?_replicate] at hy
    by_cases hm : m = 0
    · rw [if_pos hm] at hy
      simp at hy
    · rw [if_neg hm] at hy
      simp only [Option.mem_def, Option.some.injEq] at hy
      rw [← hy]
      exact h

/-- Generic computation of `stripLiquidAndNoise` on text free of markup
characters: only the whitespace normalization acts. -/
theorem strip_plain {s : List Char}
    (h1 : '\x7b' ∉ s) (h2 : '\\' ∉ s) (h3 : '$' ∉ s)
    (h4 : ∀ c ∈ s, isLu c = false) (h5 : s ≠ []) :
    stripLiquidAndNoise s = jsTrim (collapseWS s) := by
  unfold stripLiquidAndNoise
  rw [if_neg (by simpa [List.isEmpty_iff] using h5)]
  have e1 : liquidPass s = s := by
    unfold liquidPass replDelim
    rw [@replDelimFuel_id ("\x7b%".toList) ("%\x7d".toList) [' '] '\x7b' rfl _ _ h1]
    rw [@replDelimFuel_id ("\x7b\x7b".toList) ("\x7d\x7d".toList) [' '] '\x7b' rfl _ _ h1]
  rw [e1]
  have e2 : gatherParen s = s := by
    unfold gatherParen
    exact @gatherDelimFuel_id ("\\(".toList) ("\\)".toList) rfl _ _ h2
  rw [e2]
  have e3 : gatherBrack s = s := by
    unfold gatherBrack
    exact @gatherDelimFuel_id ("\\[".toList) ("\\]".toList) rfl _ _ h2
  rw [e3]
  have e4 : gatherBare s = s := by
    unfold gatherBare
    exact gatherBareFuel_id _ _ h2
  rw [e4]
  have e5 : protect s = (s, []) := by
    unfold protect
    exact protectFuel_id _ _ _ h3
  rw [e5]
  dsimp only
  rw [heurA_id h4, heurB_id h4]
  rfl

theorem c1_mem {c : Char} (hc : c ∈ (c1fill ++ c1tail) ++ [' ']) :
    c = 'a' ∨ c = ' ' ∨ c = 'z' ∨ c = 'q' := by
  rcases List.mem_append.mp hc with h | h
  · rcases List.mem_append.mp h with h2 | h2
    · exact Or.inl (List.eq_of_mem_replicate h2)
    · rw [c1tail] at h2
      simp only [List.mem_cons, List.not_mem_nil, or_false] at h2
      tauto
  · simp only [List.mem_singleton] at h
    tauto

theorem c1ft_getLast : (c1fill ++ c1tail).getLast? = some 'q' := by
  rw [List.getLast?_append]
  rfl

theorem c1ft_head : (c1fill ++ c1tail).head? = some 'a' := by
  rw [List.head?_append, c1fill, List.head?_replicate, if_neg (by norm_num)]
  rfl

theorem c1_chain : List.Chain' noDoubleSpace ((c1fill ++ c1tail) ++ [' ']) := by
  rw [List.chain'_append]
  refine ⟨?_, List.chain'_singleton _, ?_⟩
  · rw [List.chain'_append]
    refine ⟨chain'_replicate_self (fun h => absurd h (by decide)) 5301, ?_, ?_⟩
    · rw [c1tail]
      simp only [List.chain'_cons, List.chain'_singleton, and_true]
      exact ⟨fun _ => by decide, fun h => absurd h (by decide), fun h => absurd h (by decide),
        fun _ => by decide, fun h => absurd h (by decide)⟩
    intro x hx y hy
    rw [c1fill, List.getLast?_replicate, if_neg (by norm_num)] at hx
    simp only [Option.mem_def, Option.some.injEq] at hx
    rw [← hx]
    intro he
    exact absurd he (by decide)
  · intro x hx y hy
    rw [c1ft_getLast] at hx
    simp only [Option.mem_def, Option.some.injEq] at hx
    rw [← hx]
    intro he
    exact absurd he (by decide)

theorem c1_strip : stripLiquidAndNoise ((c1fill ++ c1tail) ++ [' ']) = c1fill ++ c1tail := by
  have hmem : ∀ ch : Char, ch ≠ 'a' → ch ≠ ' ' → ch ≠ 'z' → ch ≠ 'q' →
      ch ∉ (c1fill ++ c1tail) ++ [' '] := by
    intro ch hA hS hZ hQ hm
    rcases c1_mem hm with h | h | h | h
    · exact hA h
    · exact hS h
    · exact hZ h
    · exact hQ h
  rw [strip_plain (hmem _ (by decide) (by decide) (by decide) (by decide))
    (hmem _ (by decide) (by decide) (by decide) (by decide))
    (hmem _ (by decide) (by decide) (by decide) (by decide))
    (by
      intro c hcm
      rcases c1_mem hcm with h | h | h | h <;> (rw [h]; decide))
    (by
      intro he
      have := congrArg List.length he
      simp at this)]
  rw [collapseWS_fix (by
      intro c hcm
      rcases c1_mem hcm with h | h | h | h
      · rw [h]; exact Or.inl (by decide)
      · exact Or.inr h
      · rw [h]; exact Or.inl (by decide)
      · rw [h]; exact Or.inl (by decide)) c1_chain]
  unfold jsTrim
  have hd1 : List.dropWhile jsIsSpace ((c1fill ++ c1tail) ++ [' ']) =
      (c1fill ++ c1tail) ++ [' '] := by
    refine dropWhile_eq_self ?_
    intro c hcm
    rw [List.head?_append, c1ft_head] at hcm
    simp only [Option.or, Option.some.injEq] at hcm
    rw [← hcm]
    decide
  rw [hd1, List.reverse_append, List.reverse_singleton, List.singleton_append,
    List.dropWhile_cons, if_pos (by decide)]
  have hd2 : List.dropWhile jsIsSpace (c1fill ++ c1tail).reverse =
      (c1fill ++ c1tail).reverse := by
    refine dropWhile_eq_self ?_
    intro c hcm
    rw [List.head?_reverse, c1ft_getLast] at hcm
    simp only [Option.some.injEq] at hcm
    rw [← hcm]
    decide
  rw [hd2]
  exact List.reverse_reverse _

theorem c1_hay : hayOf c1doc = c1fill ++ c1tail := by
  show normalize (stripLiquidAndNoise ((c1fill ++ c1tail) ++ [' '])) = c1fill ++ c1tail
  rw [c1_strip]
  refine normalize_canon_fix ?_ ?_ ?_ ?_
  · intro c hcm
    rcases c1_mem (List.mem_append_left [' '] hcm) with h | h | h | h
    · rw [h]; exact Or.inl (by decide)
    · exact Or.inr h
    · rw [h]; exact Or.inl (by decide)
    · rw [h]; exact Or.inl (by decide)
  · exact List.Chain'.prefix c1_chain (List.prefix_append _ _)
  · intro c hcm
    rw [c1ft_head] at hcm
    simp only [Option.some.injEq] at hcm
    rw [← hcm]
    decide
  · intro c hcm
    rw [c1ft_getLast] at hcm
    simp only [Option.some.injEq] at hcm
    rw [← hcm]
    decide

theorem c1_fpp : firstPrefixPos c1phrase (c1fill ++ c1tail) = some 5302 := by
  rw [c1fill, @fpp_replicate_skip c1phrase 'z' rfl 'a' (by decide) 5301 c1tail]
  rw [show firstPrefixPos c1phrase c1tail = some 1 from by decide]
  rfl

theorem c1_idx : strIndexOf (c1fill ++ c1tail) c1phrase = 5302 := by
  rw [strIndexOf, c1_fpp]
  rfl

theorem c1_len : (c1fill ++ c1tail).length = 5307 := by
  rw [List.length_append, c1fill, List.length_replicate]
  rfl

theorem c1_occ : occCount (c1fill ++ c1tail) c1phrase = 1 := by
  rw [occCount, if_neg ?hne]
  case hne =>
    intro hcon
    rw [Bool.or_eq_true] at hcon
    rcases hcon with h | h
    · rw [List.isEmpty_iff] at h
      have := c1_len
      rw [h] at this
      simp at this
    · exact absurd h (by decide)
  rw [c1_len, show (5307 : Nat) = 5306 + 1 from rfl, occFuel, c1_fpp]
  have hdrop : (c1fill ++ c1tail).drop (5302 + c1phrase.length) = [] := by
    refine List.drop_eq_nil_of_le ?_
    rw [c1_len]
    decide
  show 1 + occFuel c1phrase 5306 (List.drop (5302 + c1phrase.length) (c1fill ++ c1tail)) = 1
  rw [hdrop, occFuel_nil (by decide)]

theorem c1_rawScore : rawScore c1phrase (c1fill ++ c1tail) = some (-2) := by
  unfold rawScore
  rw [if_pos (show wantsPhraseOf c1phrase = true from by decide)]
  rw [show phraseNormOf c1phrase = c1phrase from by decide]
  rw [if_neg (show ¬ c1phrase.isEmpty = true from by decide)]
  rw [c1_idx]
  rw [if_neg (show ¬ (5302 : Int) = -1 from by decide)]
  rw [c1_occ]
  norm_num

/-- C1, counterexample: in phrase mode, a record whose phrase first occurs at
index 5302 of the haystack is pushed onto the scored list with score
`(5000 - 5302) + 1*300 = -2`, which is not strictly positive: a non-positive
score does not exclude the record. -/
theorem C1_counterexample :
    scoredList [c1doc] c1phrase = [(-2, c1doc)] ∧ ¬ ((0 : Int) < -2) := by
  refine ⟨?_, by decide⟩
  unfold scoredList
  rw [List.filter_cons, if_pos (show (!isBigTocResult c1doc.url) = true from by decide),
    List.filter_nil, List.filterMap_cons, List.filterMap_nil, c1_hay, c1_rawScore]
  rfl

theorem scoreMatchAND_neg_or_pos (hay : List Char) (tokens : List (List Char)) :
    scoreMatchAND hay tokens = -1 ∨ 0 < scoreMatchAND hay tokens := by
  unfold scoreMatchAND
  split
  · exact Or.inl rfl
  · split
    · exact Or.inl rfl
    · rename_i idx heq
      dsimp only
      split
      · rename_i hpos
        exact Or.inr hpos
      · exact Or.inl rfl

/-- C1, amended: a record pushed onto the scored list carries a strictly
positive score in AND-token mode; in phrase mode it carries the score
`(5000 - firstIndex) + occurrences*300`, which is strictly positive only when
the first occurrence index is below `5000 + 300*occurrences` (see the
counterexample for a pushed record with score `-2`). -/
theorem C1_amended (data : List Doc) (raw : List Char) (s : Int) (item : Doc)
    (h : (s, item) ∈ scoredList data raw) :
    (wantsPhraseOf raw = false → 0 < s) ∧
    (wantsPhraseOf raw = true →
      s = (5000 - strIndexOf (hayOf item) (phraseNormOf raw)) +
        (occCount (hayOf item) (phraseNormOf raw) : Int) * 300) := by
  unfold scoredList at h
  rw [List.mem_filterMap] at h
  rcases h with ⟨a, _, ha⟩
  simp only [Option.map_eq_some'] at ha
  rcases ha with ⟨v, hrs, hpair⟩
  simp only [Prod.mk.injEq] at hpair
  obtain ⟨rfl, rfl⟩ := hpair
  unfold rawScore at hrs
  constructor
  · intro hwp
    rw [hwp] at hrs
    rw [if_neg (by simp)] at hrs
    dsimp only at hrs
    rcases scoreMatchAND_neg_or_pos (hayOf a) (tokensOf raw) with hneg | hpos
    · rw [hneg] at hrs
      rw [if_pos (by norm_num)] at hrs
      simp at hrs
    · rw [if_neg (by omega)] at hrs
      simp only [Option.some.injEq] at hrs
      omega
  · intro hwp
    rw [hwp, if_pos rfl] at hrs
    by_cases hpe : (phraseNormOf raw).isEmpty = true
    · rw [if_pos hpe] at hrs
      simp at hrs
    · rw [if_neg hpe] at hrs
      dsimp only at hrs
      by_cases hidx : strIndexOf (hayOf a) (phraseNormOf raw) = -1
      · rw [if_pos hidx] at hrs
        simp at hrs
      · rw [if_neg hidx] at hrs
        simp only [Option.some.injEq] at hrs
        omega

/-- Witness for C1's amended theorem: in AND mode the single pushed record's
score 5020 is strictly positive. -/
theorem C1_amended_witness :
    ((5020 : Int), c1wdoc) ∈ scoredList [c1wdoc] ['b', 'a', 'y', 'e', 's'] ∧ (0 : Int) < 5020 :=
  ⟨by decide,
   (C1_amended [c1wdoc] ['b', 'a', 'y', 'e', 's'] 5020 c1wdoc (by decide)).1 (by decide)⟩

/-! ### C8: the degraded math renderer -/

theorem decodeHtmlEntitiesFuel_id {s : List Char} (h : '&' ∉ s) :
    ∀ fuel, decodeHtmlEntitiesFuel fuel s = s := by
  induction s with
  | nil => intro fuel; cases fuel <;> rfl
  | cons c rest ih =>
    intro fuel
    cases fuel with
    | zero => rfl
    | succ f =>
      rw [decodeHtmlEntitiesFuel]
      rw [if_neg (fun he => h (by rw [he]; exact List.mem_cons_self _ _))]
      rw [ih (fun hm => h (List.mem_cons_of_mem _ hm)) f]

theorem decodeHtmlEntities_id {s : List Char} (h : '&' ∉ s) :
    decodeHtmlEntities s = s :=
  decodeHtmlEntitiesFuel_id h s.length

/-- C8, counterexample: on the input `&amp;` the no-renderer branch returns
`&amp;` (the escaping of the entity-decoded text `&`), not the
HTML-escaping `&amp;amp;` of the input itself. -/
theorem C8_counterexample :
    renderLatexNoKatex ("&amp;".toList) ≠ escapeHtml ("&amp;".toList) := by
  decide

/-- C8, amended: when the math renderer is unavailable,
`renderLatexInHtml` returns the HTML-escaping of the entity-decoded input;
for inputs containing no ampersand (hence no entity) this is exactly the
HTML-escaping of the input, verbatim. -/
theorem C8_amended (s : List Char) (h : '&' ∉ s) :
    renderLatexNoKatex s = escapeHtml s := by
  unfold renderLatexNoKatex
  rw [decodeHtmlEntities_id h]

/-- Witness for C8's amended theorem at a concrete input. -/
theorem C8_amended_witness :
    renderLatexNoKatex ("a<b".toList) = escapeHtml ("a<b".toList) :=
  C8_amended ("a<b".toList) (by decide)

/-! ### C10: queries that normalize to the empty string match nothing -/

theorem replNonLN_nil_or_space {x : List Char} (h : ∀ c ∈ x, isLN c = false) :
    replNonLN x = [] ∨ replNonLN x = [' '] := by
  induction x using replNonLN.induct with
  | case1 => exact Or.inl rfl
  | case2 c hc =>
    rw [h c (by simp)] at hc
    exact absurd hc (by simp)
  | case3 c hc =>
    rw [replNonLN, if_neg hc]
    exact Or.inr rfl
  | case4 c d rest hcd ih =>
    rw [replNonLN, if_pos hcd]
    exact ih (fun e he => h e (List.mem_cons_of_mem _ he))
  | case5 c d rest hcd ih =>
    exfalso
    rw [Bool.and_eq_true, Bool.not_eq_true', Bool.not_eq_true'] at hcd
    exact hcd ⟨h c (by simp), h d (by simp)⟩

theorem nfdStr_mem_of {l : List Char} {c d : Char} (hc : c ∈ l) (hd : d ∈ nfdChar c) :
    d ∈ nfdStr l := by
  induction l with
  | nil => simp at hc
  | cons e rest ih =>
    rw [nfdStr, List.mem_append]
    rcases List.mem_cons.mp hc with rfl | hc2
    · exact Or.inl hd
    · exact Or.inr (ih hc2)

theorem mem_dropWhile_of_not {p : Char → Bool} {d : Char} {l : List Char}
    (hd : d ∈ l) (hp : p d = false) : d ∈ l.dropWhile p := by
  induction l with
  | nil => simp at hd
  | cons c rest ih =>
    rw [List.dropWhile_cons]
    by_cases hc : p c = true
    · rw [if_pos hc]
      rcases List.mem_cons.mp hd with rfl | hd2
      · rw [hc] at hp; exact absurd hp (by simp)
      · exact ih hd2
    · rw [if_neg hc]
      exact hd

theorem mem_jsTrim_of_nonspace {d : Char} {s : List Char}
    (hd : d ∈ s) (hns : jsIsSpace d = false) : d ∈ jsTrim s := by
  unfold jsTrim
  rw [List.mem_reverse]
  refine mem_dropWhile_of_not ?_ hns
  rw [List.mem_reverse]
  exact mem_dropWhile_of_not hd hns

theorem mem_collapseWS_of_nonspace {d : Char} {s : List Char}
    (hd : d ∈ s) (hns : jsIsSpace d = false) : d ∈ collapseWS s := by
  induction s using collapseWS.induct with
  | case1 => simp at hd
  | case2 c hc =>
    rcases List.mem_singleton.mp hd with rfl
    rw [hc] at hns
    exact absurd hns (by simp)
  | case3 c hc =>
    rw [collapseWS, if_neg hc]
    exact hd
  | case4 c d' rest hcd ih =>
    rw [collapseWS, if_pos hcd]
    refine ih ?_
    rcases List.mem_cons.mp hd with rfl | hd2
    · rw [Bool.and_eq_true] at hcd
      rw [hcd.1] at hns
      exact absurd hns (by simp)
    · exact hd2
  | case5 c d' rest hcd ih =>
    rw [collapseWS, if_neg hcd]
    rcases List.mem_cons.mp hd with rfl | hd2
    · rw [if_neg (by rw [hns]; simp)]
      exact List.mem_cons_self _ _
    · exact List.mem_cons_of_mem _ (ih hd2)

theorem replNonLN_mem_LN {x : List Char} {d : Char}
    (hLN : isLN d = true) (hd : d ∈ x) : d ∈ replNonLN x := by
  induction x using replNonLN.induct with
  | case1 => simp at hd
  | case2 c hc =>
    rcases List.mem_singleton.mp hd with rfl
    rw [replNonLN, if_pos hc]
    simp
  | case3 c hc =>
    rcases List.mem_singleton.mp hd with rfl
    exact absurd hLN hc
  | case4 c d' rest hcd ih =>
    rw [replNonLN, if_pos hcd]
    rcases List.mem_cons.mp hd with rfl | hd2
    · rw [Bool.and_eq_true, Bool.not_eq_true'] at hcd
      rw [hcd.1] at hLN
      exact absurd hLN (by simp)
    · exact ih hd2
  | case5 c d' rest hcd ih =>
    rw [replNonLN, if_neg hcd]
    rcases List.mem_cons.mp hd with rfl | hd2
    · rw [if_pos hLN]
      exact List.mem_cons_self _ _
    · exact List.mem_cons_of_mem _ (ih hd2)

theorem normalize_nil_of {t : List Char}
    (h : ∀ c ∈ t, ∀ d ∈ nfdChar (jsLower c), isCombMark d = false → isLN d = false) :
    normalize t = [] := by
  unfold normalize
  have hx : ∀ e ∈ (nfdStr (t.map jsLower)).filter (fun c => !isCombMark c), isLN e = false := by
    intro e he
    rw [List.mem_filter] at he
    rcases mem_nfdStr he.1 with ⟨c', hc', hec⟩
    rw [List.mem_map] at hc'
    rcases hc' with ⟨c, hc, rfl⟩
    exact h c hc e hec (by simpa using he.2)
  rcases replNonLN_nil_or_space hx with he | he <;> rw [he] <;> rfl

theorem normalize_nil_allNonLN {s : List Char} (h : normalize s = []) :
    ∀ c ∈ s, ∀ d ∈ nfdChar (jsLower c), isCombMark d = false → isLN d = false := by
  intro c hc d hd hm
  by_contra hLN'
  rw [Bool.not_eq_false] at hLN'
  have hdx : d ∈ (nfdStr (s.map jsLower)).filter (fun c => !isCombMark c) := by
    rw [List.mem_filter]
    exact ⟨nfdStr_mem_of (List.mem_map_of_mem jsLower hc) hd, by simp [hm]⟩
  have h1 := replNonLN_mem_LN hLN' hdx
  have h2 := mem_jsTrim_of_nonspace h1 (isLN_not_space hLN')
  have h3 := mem_collapseWS_of_nonspace h2 (isLN_not_space hLN')
  have h4 : d ∈ normalize s := h3
  rw [h] at h4
  exact absurd h4 (List.not_mem_nil d)

theorem normalize_nil_of_sublist {s t : List Char} (hsub : t.Sublist s)
    (h : normalize s = []) : normalize t = [] :=
  normalize_nil_of (fun c hc => normalize_nil_allNonLN h c (hsub.mem hc))

theorem jsTrim_sublist (s : List Char) : (jsTrim s).Sublist s := by
  unfold jsTrim
  have h1 : (List.dropWhile jsIsSpace s).Sublist s :=
    (List.dropWhile_suffix jsIsSpace).sublist
  have h2 : (List.dropWhile jsIsSpace (List.dropWhile jsIsSpace s).reverse).Sublist
      (List.dropWhile jsIsSpace s).reverse :=
    (List.dropWhile_suffix jsIsSpace).sublist
  have h3 := h2.reverse
  rw [List.reverse_reverse] at h3
  exact h3.trans h1

theorem phraseRaw_sublist (raw : List Char) : (phraseRawOf raw).Sublist raw := by
  unfold phraseRawOf
  split
  · refine List.Sublist.trans ?_ (jsTrim_sublist raw)
    refine List.Sublist.trans (List.dropLast_sublist _) ?_
    exact List.drop_sublist 1 _
  · exact jsTrim_sublist raw

/-- C10: a query that is non-empty after trimming but whose normalization is
empty (no letters or digits) returns no matches: the phrase branch skips
every record because the normalized phrase is empty, and the AND branch's
token list is empty, so `scoreMatchAND` returns the sentinel for every
record. -/
theorem C10_empty_normalization (data : List Doc) (raw : List Char)
    (hne : jsTrim raw ≠ []) (hnorm : normalize raw = []) :
    doSearch data raw = [] := by
  unfold doSearch
  rw [if_neg (by simpa [qRawOf, List.isEmpty_iff] using hne)]
  have hq : normalize (qRawOf raw) = [] :=
    normalize_nil_of_sublist (jsTrim_sublist raw) hnorm
  have hp : normalize (phraseRawOf raw) = [] :=
    normalize_nil_of_sublist (phraseRaw_sublist raw) hnorm
  have htok : tokensOf raw = [] := by
    unfold tokensOf
    rw [hq]
    rfl
  have hsl : scoredList data raw = [] := by
    unfold scoredList
    rw [List.filterMap_eq_nil_iff]
    intro item _
    rw [show rawScore raw (hayOf item) = none from ?hnone]
    · rfl
    case hnone =>
      unfold rawScore
      by_cases hwp : wantsPhraseOf raw = true
      · rw [if_pos hwp, if_pos (by unfold phraseNormOf; rw [hp]; rfl)]
      · rw [if_neg hwp, htok]
        dsimp only
        rw [if_pos (by rw [show scoreMatchAND (hayOf item) [] = (-1 : Int) from rfl]; norm_num)]
  rw [doSearchSorted, hsl]
  rfl

/-- Witness for C10 at a concrete query. -/
theorem C10_witness : doSearch [c10doc] ['!', '!', '!'] = [] :=
  C10_empty_normalization [c10doc] ['!', '!', '!'] (by decide) (by decide)

/-! ### C5: the phrase-mode match condition and score -/

theorem mem_scoredList_iff {data : List Doc} {raw : List Char} {s : Int} {item : Doc} :
    (s, item) ∈ scoredList data raw ↔
      (item ∈ data ∧ isBigTocResult item.url = false ∧
        rawScore raw (hayOf item) = some s) := by
  unfold scoredList
  rw [List.mem_filterMap]
  constructor
  · rintro ⟨a, ha, hmap⟩
    rw [List.mem_filter] at ha
    rw [Option.map_eq_some'] at hmap
    rcases hmap with ⟨s', hs', heq⟩
    rw [Prod.mk.injEq] at heq
    obtain ⟨rfl, rfl⟩ := heq
    exact ⟨ha.1, by simpa using ha.2, hs'⟩
  · rintro ⟨hmem, hbig, hscore⟩
    exact ⟨item, List.mem_filter.mpr ⟨hmem, by simp [hbig]⟩, by rw [hscore]; rfl⟩

/-- C5: in phrase mode the claimed iff fails on the edge case of a phrase
that normalizes to the empty string: "? !" triggers phrase mode, its
normalized phrase (the empty string) is a contiguous substring of the
record's haystack, yet the record is skipped and the scored list is empty. -/
theorem C5_counterexample :
    wantsPhraseOf ("? !".toList) = true ∧
    phraseNormOf ("? !".toList) <:+: hayOf c5doc ∧
    scoredList [c5doc] ("? !".toList) = [] := by
  refine ⟨by decide, ?_, by decide⟩
  rw [show phraseNormOf ("? !".toList) = [] from by decide]
  exact List.nil_infix

/-- C5 (amended): in phrase mode with a phrase whose normalization is
non-empty, a non-big-TOC record of the index enters the scored list iff the
normalized haystack contains the normalized phrase as a contiguous
substring, and the stored score is
(5000 - firstMatchIndex) + occurrenceCount * 300. -/
theorem C5_phrase_mode (data : List Doc) (raw : List Char) (item : Doc)
    (hwp : wantsPhraseOf raw = true) (hpn : phraseNormOf raw ≠ [])
    (hitem : item ∈ data) (hbig : isBigTocResult item.url = false) :
    ((∃ s, (s, item) ∈ scoredList data raw) ↔ phraseNormOf raw <:+: hayOf item) ∧
    (∀ s, (s, item) ∈ scoredList data raw →
      s = (5000 - strIndexOf (hayOf item) (phraseNormOf raw))
          + (occCount (hayOf item) (phraseNormOf raw) : Int) * 300) := by
  have key : rawScore raw (hayOf item) =
      if strIndexOf (hayOf item) (phraseNormOf raw) = -1 then none
      else some ((5000 - strIndexOf (hayOf item) (phraseNormOf raw))
        + (occCount (hayOf item) (phraseNormOf raw) : Int) * 300) := by
    unfold rawScore
    rw [if_pos hwp, if_neg (by simpa [List.isEmpty_iff] using hpn)]
  constructor
  · constructor
    · rintro ⟨s, hs⟩
      rw [mem_scoredList_iff] at hs
      have h2 := hs.2.2
      rw [key] at h2
      by_cases hidx : strIndexOf (hayOf item) (phraseNormOf raw) = -1
      · rw [if_pos hidx] at h2
        exact absurd h2 (by simp)
      · by_contra hninf
        exact hidx (strIndexOf_neg_one_iff.mpr hninf)
    · intro hinf
      have hidx : strIndexOf (hayOf item) (phraseNormOf raw) ≠ -1 :=
        fun h => (strIndexOf_neg_one_iff.mp h) hinf
      refine ⟨(5000 - strIndexOf (hayOf item) (phraseNormOf raw))
          + (occCount (hayOf item) (phraseNormOf raw) : Int) * 300,
        mem_scoredList_iff.mpr ⟨hitem, hbig, ?_⟩⟩
      rw [key, if_neg hidx]
  · intro s hs
    rw [mem_scoredList_iff] at hs
    have h2 := hs.2.2
    rw [key] at h2
    by_cases hidx : strIndexOf (hayOf item) (phraseNormOf raw) = -1
    · rw [if_pos hidx] at h2
      exact absurd h2 (by simp)
    · rw [if_neg hidx] at h2
      exact (Option.some.injEq _ _ ▸ h2).symm

/-- Witness for C5 at a concrete record and query. -/
theorem C5_phrase_mode_witness :
    wantsPhraseOf ("ab cd".toList) = true ∧
    ((∃ s, (s, c5wdoc) ∈ scoredList [c5wdoc] ("ab cd".toList)) ↔
      phraseNormOf ("ab cd".toList) <:+: hayOf c5wdoc) :=
  ⟨by decide,
    (C5_phrase_mode [c5wdoc] ("ab cd".toList) c5wdoc (by decide) (by decide)
      (by decide) (by decide)).1⟩

/-! ### C6: big-TOC and home records never appear in results -/

theorem mem_insertOrd {p x : Int × Doc} {l : List (Int × Doc)}
    (h : p ∈ insertOrd x l) : p = x ∨ p ∈ l := by
  induction l with
  | nil =>
    rw [insertOrd] at h
    exact Or.inl (List.mem_singleton.mp h)
  | cons y ys ih =>
    rw [insertOrd] at h
    by_cases hc : cmpResult y x ≤ 0
    · rw [if_pos hc] at h
      rcases List.mem_cons.mp h with rfl | h2
      · exact Or.inr (List.mem_cons_self _ _)
      · rcases ih h2 with h3 | h3
        · exact Or.inl h3
        · exact Or.inr (List.mem_cons_of_mem _ h3)
    · rw [if_neg hc] at h
      rcases List.mem_cons.mp h with rfl | h2
      · exact Or.inl rfl
      · exact Or.inr h2

theorem mem_sortScored {p : Int × Doc} {l : List (Int × Doc)}
    (h : p ∈ sortScored l) : p ∈ l := by
  induction l with
  | nil =>
    rw [sortScored] at h
    exact absurd h (List.not_mem_nil p)
  | cons x xs ih =>
    rw [sortScored] at h
    rcases mem_insertOrd h with rfl | h2
    · exact List.mem_cons_self _ _
    · exact List.mem_cons_of_mem _ (ih h2)

/-- C6: no record whose URL is a language home page or table-of-contents
variant ever appears in the results, for any index and query; and on the
concrete three-record index of the claim, searching "Bayes" returns exactly
the ordinary section record. -/
theorem C6_big_toc_filtered :
    (∀ (data : List Doc) (raw : List Char) (d : Doc),
      d ∈ doSearch data raw → isBigTocResult d.url = false) ∧
    doSearch [c6home, c6toc, c6sec] ("Bayes".toList) = [c6sec] := by
  constructor
  · intro data raw d hd
    unfold doSearch at hd
    by_cases hq : (qRawOf raw).isEmpty
    · rw [if_pos hq] at hd
      simp at hd
    · rw [if_neg hq] at hd
      rw [List.mem_map] at hd
      rcases hd with ⟨p, hp, rfl⟩
      have hp2 : p ∈ doSearchSorted data raw := (List.take_sublist 80 _).mem hp
      unfold doSearchSorted at hp2
      have hp3 := mem_sortScored hp2
      obtain ⟨s, item⟩ := p
      exact (mem_scoredList_iff.mp hp3).2.1
  · decide

/-- Witness for C6: the surviving record of the concrete example is indeed
not a big-TOC record. -/
theorem C6_witness : isBigTocResult c6sec.url = false :=
  C6_big_toc_filtered.1 [c6home, c6toc, c6sec] ("Bayes".toList) c6sec
    (by rw [C6_big_toc_filtered.2]; exact List.mem_singleton.mpr rfl)

/-! ### C3: dollar-delimiter parity of snippets -/

theorem fpp_le_length {needle s : List Char} {n : Nat}
    (h : firstPrefixPos needle s = some n) : n ≤ s.length := by
  induction s generalizing n with
  | nil =>
    rw [firstPrefixPos] at h
    by_cases he : needle.isEmpty = true
    · rw [if_pos he] at h
      simp only [Option.some.injEq] at h
      omega
    · rw [if_neg he] at h
      simp at h
  | cons c rest ih =>
    rw [firstPrefixPos] at h
    by_cases hp : needle.isPrefixOf (c :: rest) = true
    · rw [if_pos hp] at h
      simp only [Option.some.injEq] at h
      simp [← h]
    · rw [if_neg hp] at h
      simp only [Option.map_eq_some'] at h
      rcases h with ⟨m, hm, rfl⟩
      have := ih hm
      simp
      omega

theorem strIndexOf_le_length (hay needle : List Char) :
    strIndexOf hay needle ≤ (hay.length : Int) := by
  rw [strIndexOf]
  cases hfpp : firstPrefixPos needle hay with
  | none =>
    show (-1 : Int) ≤ _
    omega
  | some n =>
    show (n : Int) ≤ _
    exact_mod_cast fpp_le_length hfpp

theorem firstCharPos_none_iff {c : Char} {s : List Char} :
    firstCharPos c s = none ↔ c ∉ s := by
  induction s with
  | nil => simp [firstCharPos]
  | cons d rest ih =>
    rw [firstCharPos]
    by_cases hd : (d == c) = true
    · rw [if_pos hd]
      rw [beq_iff_eq] at hd
      subst hd
      simp
    · rw [if_neg hd]
      rw [beq_iff_eq] at hd
      simp only [Option.map_eq_none', ih, List.mem_cons]
      constructor
      · intro h hor
        rcases hor with rfl | hmem
        · exact hd rfl
        · exact h hmem
      · intro h hmem
        exact h (Or.inr hmem)

theorem firstCharPos_lt_length {c : Char} {s : List Char} {n : Nat}
    (h : firstCharPos c s = some n) : n < s.length := by
  induction s generalizing n with
  | nil => simp [firstCharPos] at h
  | cons d rest ih =>
    rw [firstCharPos] at h
    by_cases hd : (d == c) = true
    · rw [if_pos hd] at h
      simp only [Option.some.injEq] at h
      simp [← h]
    · rw [if_neg hd] at h
      simp only [Option.map_eq_some'] at h
      rcases h with ⟨m, hm, rfl⟩
      have := ih hm
      simp
      omega

theorem firstCharPos_take_succ {c : Char} {s : List Char} {n : Nat}
    (h : firstCharPos c s = some n) : (s.take (n + 1)).count c = 1 := by
  induction s generalizing n with
  | nil => simp [firstCharPos] at h
  | cons d rest ih =>
    rw [firstCharPos] at h
    by_cases hd : (d == c) = true
    · rw [if_pos hd] at h
      simp only [Option.some.injEq] at h
      subst h
      rw [beq_iff_eq] at hd
      subst hd
      rw [List.take_succ_cons, List.take_zero, List.count_cons]
      simp
    · rw [if_neg hd] at h
      simp only [Option.map_eq_some'] at h
      rcases h with ⟨m, hm, rfl⟩
      rw [List.take_succ_cons, List.count_cons, ih hm]
      simp only [beq_iff_eq] at hd ⊢
      rw [if_neg (by intro hcd; exact hd (by rw [hcd]))]

theorem lastCharPos_none_iff {c : Char} {s : List Char} :
    lastCharPos c s = none ↔ c ∉ s := by
  rw [lastCharPos, Option.map_eq_none', firstCharPos_none_iff, List.mem_reverse]

theorem lastCharPos_take {c : Char} {s : List Char} {ld : Nat}
    (h : lastCharPos c s = some ld) :
    ld < s.length ∧ (s.take ld).count c = s.count c - 1 := by
  rw [lastCharPos, Option.map_eq_some'] at h
  rcases h with ⟨j, hj, rfl⟩
  have hjl : j < s.length := by
    have := firstCharPos_lt_length hj
    simpa using this
  constructor
  · omega
  · have hdrop : s.drop (s.length - 1 - j) = (s.reverse.take (j + 1)).reverse := by
      rw [List.reverse_take]
      rw [List.reverse_reverse, List.length_reverse]
      congr 1
      omega
    have hcnt1 : (s.reverse.take (j + 1)).count c = 1 := firstCharPos_take_succ hj
    have hsplit : s.count c = (s.take (s.length - 1 - j)).count c
        + (s.drop (s.length - 1 - j)).count c := by
      rw [← List.count_append, List.take_append_drop]
    rw [hdrop, List.count_reverse, hcnt1] at hsplit
    omega

theorem jsSlice_nonneg {s : List Char} {a b : Int}
    (h0 : 0 ≤ a) (h1 : a ≤ b) (h2 : b ≤ (s.length : Int)) :
    jsSlice s a b = (s.drop a.toNat).take (b.toNat - a.toNat) := by
  rw [jsSlice]
  rw [if_neg (by omega), if_neg (by omega)]
  rw [min_eq_left (by omega), min_eq_left (by omega)]
  rw [List.drop_take]

theorem snippet_core_parity (t : List Char) (start stop : Int)
    (h0 : 0 ≤ start) (h1 : start ≤ stop) (h2 : stop ≤ (t.length : Int)) :
    (if (jsSlice t start stop).count '$' % 2 = 1 then
        match firstCharPos '$' (jsSlice t stop (min (t.length : Int) (stop + 200))) with
        | some nd => jsSlice t start stop ++ jsSlice t stop (stop + nd + 1)
        | none =>
          match lastCharPos '$' (jsSlice t start stop) with
          | some ld => jsSlice (jsSlice t start stop) 0 ld
          | none => jsSlice t start stop
      else jsSlice t start stop).count '$' % 2 = 0 := by
  by_cases hpar : (jsSlice t start stop).count '$' % 2 = 1
  · rw [if_pos hpar]
    cases hfc : firstCharPos '$' (jsSlice t stop (min (t.length : Int) (stop + 200))) with
    | some nd =>
      show (jsSlice t start stop ++ jsSlice t stop (stop + nd + 1)).count '$' % 2 = 0
      have hndlt := firstCharPos_lt_length hfc
      have hrest : jsSlice t stop (min (t.length : Int) (stop + 200))
          = (t.drop stop.toNat).take ((min (t.length : Int) (stop + 200)).toNat - stop.toNat) :=
        jsSlice_nonneg (by omega) (by omega) (by omega)
      rw [hrest] at hfc hndlt
      rw [List.length_take, List.length_drop] at hndlt
      have happ : (jsSlice t stop (stop + nd + 1)).count '$' = 1 := by
        have happE : jsSlice t stop (stop + nd + 1) = (t.drop stop.toNat).take (nd + 1) := by
          rw [jsSlice_nonneg (by omega) (by omega) (by omega)]
          congr 1
          omega
        rw [happE]
        have htt : (t.drop stop.toNat).take (nd + 1)
            = ((t.drop stop.toNat).take
                ((min (t.length : Int) (stop + 200)).toNat - stop.toNat)).take (nd + 1) := by
          rw [List.take_take, min_eq_left (by omega)]
        rw [htt]
        exact firstCharPos_take_succ hfc
      rw [List.count_append, happ]
      omega
    | none =>
      show ((match lastCharPos '$' (jsSlice t start stop) with
          | some ld => jsSlice (jsSlice t start stop) 0 ld
          | none => jsSlice t start stop).count '$') % 2 = 0
      cases hlc : lastCharPos '$' (jsSlice t start stop) with
      | none =>
        exfalso
        have hmem : '$' ∈ jsSlice t start stop := by
          have hpos : 0 < (jsSlice t start stop).count '$' := by omega
          exact List.count_pos_iff.mp hpos
        exact (lastCharPos_none_iff.mp hlc) hmem
      | some ld =>
        show (jsSlice (jsSlice t start stop) 0 ld).count '$' % 2 = 0
        obtain ⟨hldlt, hcnt⟩ := lastCharPos_take hlc
        have hsl : jsSlice (jsSlice t start stop) 0 (ld : Int)
            = (jsSlice t start stop).take ld := by
          rw [jsSlice_nonneg (by omega) (by omega) (by exact_mod_cast Nat.le_of_lt hldlt)]
          simp
        rw [hsl, hcnt]
        omega
  · rw [if_neg hpar]
    omega

theorem strIndexOf_nonneg_of_ne {hay needle : List Char}
    (h : strIndexOf hay needle ≠ -1) : 0 ≤ strIndexOf hay needle := by
  rw [strIndexOf] at h ⊢
  cases hfpp : firstPrefixPos needle hay with
  | none => rw [hfpp] at h; exact absurd rfl h
  | some n => exact Int.natCast_nonneg n

theorem snippet_decor_parity (t : List Char) (start stop : Int) (core : List Char)
    (hcore : core.count '$' % 2 = 0) :
    ((if stop < (t.length : Int) then
        (if start > 0 then '…' :: [' ', '…', ' '] ++ core else core) ++ [' ', '…', ' '] ++ ['…']
      else (if start > 0 then '…' :: [' ', '…', ' '] ++ core else core)).count '$') % 2 = 0 := by
  split_ifs <;> first
    | exact hcore
    | (simp [List.count_append, List.count_cons]; omega)

/-- C3: the no-match path of `makeSnippet` slices the sanitized text blindly
and can cut a math span in half: for content "$ab$", query "zzz" and
maxLength 2 the snippet is "$a", which contains an odd number of dollar
delimiters; the claimed even-count property fails. -/
theorem C3_counterexample :
    (makeSnippet ("$ab$".toList) ("zzz".toList) 2).count '$' % 2 = 1 := by decide

/-- C3 (amended): when the query is found in the sanitized text and maxLength
is non-negative, the snippet returned by `makeSnippet` contains an even
number of dollars: whenever the window cuts a span open, the core is either
extended through the next dollar or truncated at the last one. -/
theorem C3_snippet_parity (text q : List Char) (maxLen : Int) (hml : 0 ≤ maxLen)
    (hmatch : strIndexOf ((stripLiquidAndNoise text).map jsLower) (q.map jsLower) ≠ -1) :
    (makeSnippet text q maxLen).count '$' % 2 = 0 := by
  unfold makeSnippet
  dsimp only
  rw [if_neg hmatch]
  set T := stripLiquidAndNoise text with hT
  have hi0 : 0 ≤ strIndexOf (T.map jsLower) (q.map jsLower) :=
    strIndexOf_nonneg_of_ne hmatch
  have hilen : strIndexOf (T.map jsLower) (q.map jsLower) ≤ (T.length : Int) := by
    have h := strIndexOf_le_length (T.map jsLower) (q.map jsLower)
    rwa [List.length_map] at h
  set i := strIndexOf (T.map jsLower) (q.map jsLower) with hidef
  set d := Int.fdiv maxLen 3 with hddef
  have hd0 : 0 ≤ d := Int.fdiv_nonneg hml (by norm_num)
  set start := max 0 (i - d) with hstart
  set stop := min (T.length : Int) (start + maxLen) with hstop
  have h0 : (0 : Int) ≤ start := by omega
  have h1 : start ≤ stop := by omega
  have h2 : stop ≤ (T.length : Int) := by omega
  exact snippet_decor_parity T start stop _ (snippet_core_parity T start stop h0 h1 h2)

/-- Witness for C3 at a concrete matching input. -/
theorem C3_snippet_parity_witness :
    (0 : Int) ≤ 300 ∧ (makeSnippet ("$ab$ hello".toList) ("hello".toList) 300).count '$' % 2 = 0 :=
  ⟨by decide, C3_snippet_parity ("$ab$ hello".toList) ("hello".toList) 300 (by decide) (by decide)⟩

/-! ### C7: ordering of the result list -/

theorem getD4_zero (x0 x1 x2 x3 d : Int) : [x0, x1, x2, x3].getD 0 d = x0 := rfl

theorem getD4_one (x0 x1 x2 x3 d : Int) : [x0, x1, x2, x3].getD 1 d = x1 := rfl

theorem getD4_two (x0 x1 x2 x3 d : Int) : [x0, x1, x2, x3].getD 2 d = x2 := rfl

theorem getD4_three (x0 x1 x2 x3 d : Int) : [x0, x1, x2, x3].getD 3 d = x3 := rfl

theorem cmpKeys_four (a0 a1 a2 a3 b0 b1 b2 b3 : Int) :
    cmpKeys [a0, a1, a2, a3] [b0, b1, b2, b3] =
      if a0 ≠ b0 then a0 - b0
      else if a1 ≠ b1 then a1 - b1
      else if a2 ≠ b2 then a2 - b2
      else if a3 ≠ b3 then a3 - b3
      else 0 := rfl

theorem bookOrderKey_shape (url : List Char) :
    ∃ k0 k1 k2 k3 : Int, bookOrderKey url = [k0, k1, k2, k3] := by
  unfold bookOrderKey
  dsimp only
  split
  · exact ⟨0, 0, 0, 0, rfl⟩
  · split
    · exact ⟨999, 999, 999, 9, rfl⟩
    · split
      · exact ⟨_, _, 0, 0, rfl⟩
      · split
        · exact ⟨_, _, _, 1, rfl⟩
        · exact ⟨_, _, 999, 1, rfl⟩

theorem cmpResult_le_iff {a b : Int × Doc} {a0 a1 a2 a3 b0 b1 b2 b3 : Int}
    (ha : bookOrderKey a.2.url = [a0, a1, a2, a3])
    (hb : bookOrderKey b.2.url = [b0, b1, b2, b3]) :
    cmpResult a b ≤ 0 ↔
      (a0 < b0 ∨ (a0 = b0 ∧ a1 < b1) ∨ (a0 = b0 ∧ a1 = b1 ∧ b.1 < a.1) ∨
        (a0 = b0 ∧ a1 = b1 ∧ a.1 = b.1 ∧ (a2 < b2 ∨ (a2 = b2 ∧ a3 ≤ b3)))) := by
  unfold cmpResult
  rw [ha, hb]
  dsimp only
  simp only [getD4_zero, getD4_one]
  rw [cmpKeys_four]
  split_ifs <;> omega

theorem cmpResult_le_total (a b : Int × Doc) :
    cmpResult a b ≤ 0 ∨ cmpResult b a ≤ 0 := by
  obtain ⟨a0, a1, a2, a3, ha⟩ := bookOrderKey_shape a.2.url
  obtain ⟨b0, b1, b2, b3, hb⟩ := bookOrderKey_shape b.2.url
  rw [cmpResult_le_iff ha hb, cmpResult_le_iff hb ha]
  omega

theorem cmpResult_trans {a b c : Int × Doc}
    (hab : cmpResult a b ≤ 0) (hbc : cmpResult b c ≤ 0) : cmpResult a c ≤ 0 := by
  obtain ⟨a0, a1, a2, a3, ha⟩ := bookOrderKey_shape a.2.url
  obtain ⟨b0, b1, b2, b3, hb⟩ := bookOrderKey_shape b.2.url
  obtain ⟨c0, c1, c2, c3, hc⟩ := bookOrderKey_shape c.2.url
  rw [cmpResult_le_iff ha hb] at hab
  rw [cmpResult_le_iff hb hc] at hbc
  rw [cmpResult_le_iff ha hc]
  omega

theorem pairwise_insertOrd {x : Int × Doc} {l : List (Int × Doc)}
    (hl : l.Pairwise (fun p q => cmpResult p q ≤ 0)) :
    (insertOrd x l).Pairwise (fun p q => cmpResult p q ≤ 0) := by
  induction l with
  | nil => simp [insertOrd]
  | cons y ys ih =>
    rw [List.pairwise_cons] at hl
    obtain ⟨hy, hys⟩ := hl
    rw [insertOrd]
    by_cases hc : cmpResult y x ≤ 0
    · rw [if_pos hc]
      rw [List.pairwise_cons]
      refine ⟨?_, ih hys⟩
      intro z hz
      rcases mem_insertOrd hz with rfl | hzys
      · exact hc
      · exact hy z hzys
    · rw [if_neg hc]
      have hxy : cmpResult x y ≤ 0 := by
        rcases cmpResult_le_total x y with h | h
        · exact h
        · exact absurd h hc
      rw [List.pairwise_cons]
      refine ⟨?_, List.pairwise_cons.mpr ⟨hy, hys⟩⟩
      intro z hz
      rcases List.mem_cons.mp hz with rfl | hzys
      · exact hxy
      · exact cmpResult_trans hxy (hy z hzys)

theorem pairwise_sortScored (l : List (Int × Doc)) :
    (sortScored l).Pairwise (fun p q => cmpResult p q ≤ 0) := by
  induction l with
  | nil => simp [sortScored]
  | cons x xs ih =>
    rw [sortScored]
    exact pairwise_insertOrd ih

/-- C7: the rendered result list (the sorted scored list capped at 80) is
pairwise ordered by part ascending, then chapter ascending, then score
descending, then the remaining key components (section, section flag)
ascending; on the concrete two-record index, the chapter-I/2 record precedes
the chapter-I/5 record although the latter has the higher raw score. -/
theorem C7_result_order :
    (∀ (data : List Doc) (raw : List Char),
      ((doSearchSorted data raw).take 80).Pairwise (fun p q =>
        (bookOrderKey p.2.url).getD 0 0 < (bookOrderKey q.2.url).getD 0 0 ∨
        ((bookOrderKey p.2.url).getD 0 0 = (bookOrderKey q.2.url).getD 0 0 ∧
          (bookOrderKey p.2.url).getD 1 0 < (bookOrderKey q.2.url).getD 1 0) ∨
        ((bookOrderKey p.2.url).getD 0 0 = (bookOrderKey q.2.url).getD 0 0 ∧
          (bookOrderKey p.2.url).getD 1 0 = (bookOrderKey q.2.url).getD 1 0 ∧ q.1 < p.1) ∨
        ((bookOrderKey p.2.url).getD 0 0 = (bookOrderKey q.2.url).getD 0 0 ∧
          (bookOrderKey p.2.url).getD 1 0 = (bookOrderKey q.2.url).getD 1 0 ∧ p.1 = q.1 ∧
          ((bookOrderKey p.2.url).getD 2 0 < (bookOrderKey q.2.url).getD 2 0 ∨
            ((bookOrderKey p.2.url).getD 2 0 = (bookOrderKey q.2.url).getD 2 0 ∧
              (bookOrderKey p.2.url).getD 3 0 ≤ (bookOrderKey q.2.url).getD 3 0))))) ∧
    doSearch [c7late, c7early] ("bayes".toList) = [c7early, c7late] := by
  constructor
  · intro data raw
    have hp2 : (doSearchSorted data raw).Pairwise (fun p q => cmpResult p q ≤ 0) :=
      pairwise_sortScored (scoredList data raw)
    have hp3 : ((doSearchSorted data raw).take 80).Pairwise
        (fun p q => cmpResult p q ≤ 0) :=
      hp2.sublist (List.take_sublist 80 _)
    refine hp3.imp ?_
    intro p q hle
    obtain ⟨a0, a1, a2, a3, ha⟩ := bookOrderKey_shape p.2.url
    obtain ⟨b0, b1, b2, b3, hb⟩ := bookOrderKey_shape q.2.url
    rw [cmpResult_le_iff ha hb] at hle
    rw [ha, hb]
    simp only [getD4_zero, getD4_one, getD4_two, getD4_three]
    omega
  · decide

/-! ### C4: math spans and the restore pass -/

theorem heurA_cons_nomatch {c : Char} {rest : List Char} (hc : isPunctSent c = false) :
    heurA (c :: rest) = c :: heurA rest := by
  cases rest with
  | nil => rfl
  | cons d r =>
    rw [heurA, if_neg (by rw [hc]; simp)]

theorem heurB_cons_cfail {c : Char} {rest : List Char}
    (hc : (isLl c || isNd c) = false) :
    heurB (c :: rest) = c :: heurB rest := by
  cases rest with
  | nil => rfl
  | cons d r =>
    cases r with
    | nil => rfl
    | cons e r2 =>
      rw [heurB, if_neg (by rw [hc]; simp)]

theorem heurB_cons2_dfail {c d : Char} {rest : List Char} (hd : isLu d = false) :
    heurB (c :: d :: rest) = c :: heurB (d :: rest) := by
  cases rest with
  | nil => rfl
  | cons e r2 =>
    rw [heurB, if_neg (by rw [hd]; simp)]

theorem collapseWS_cons_nonspace {c : Char} (rest : List Char)
    (hc : jsIsSpace c = false) :
    collapseWS (c :: rest) = c :: collapseWS rest := by
  cases rest with
  | nil =>
    show collapseWS [c] = [c]
    rw [collapseWS, if_neg (by rw [hc]; simp)]
  | cons d r =>
    rw [collapseWS, if_neg (by rw [hc]; simp), if_neg (by rw [hc]; simp)]

theorem heurA_ph (w : List Char) :
    heurA (placeholderStr 0 ++ w) = placeholderStr 0 ++ heurA w := by
  show heurA ('<' :: '<' :: 'L' :: 'A' :: 'T' :: 'E' :: 'X' :: '0' :: '>' :: '>' :: w)
    = '<' :: '<' :: 'L' :: 'A' :: 'T' :: 'E' :: 'X' :: '0' :: '>' :: '>' :: heurA w
  rw [heurA_cons_nomatch (by decide), heurA_cons_nomatch (by decide),
    heurA_cons_nomatch (by decide), heurA_cons_nomatch (by decide),
    heurA_cons_nomatch (by decide), heurA_cons_nomatch (by decide),
    heurA_cons_nomatch (by decide), heurA_cons_nomatch (by decide),
    heurA_cons_nomatch (by decide), heurA_cons_nomatch (by decide)]

theorem heurB_ph (w : List Char) :
    heurB (placeholderStr 0 ++ w) = placeholderStr 0 ++ heurB w := by
  show heurB ('<' :: '<' :: 'L' :: 'A' :: 'T' :: 'E' :: 'X' :: '0' :: '>' :: '>' :: w)
    = '<' :: '<' :: 'L' :: 'A' :: 'T' :: 'E' :: 'X' :: '0' :: '>' :: '>' :: heurB w
  rw [heurB_cons_cfail (by decide), heurB_cons_cfail (by decide),
    heurB_cons_cfail (by decide), heurB_cons_cfail (by decide),
    heurB_cons_cfail (by decide), heurB_cons_cfail (by decide),
    heurB_cons_cfail (by decide), heurB_cons2_dfail (by decide),
    heurB_cons_cfail (by decide), heurB_cons_cfail (by decide)]

theorem collapseWS_ph (w : List Char) :
    collapseWS (placeholderStr 0 ++ w) = placeholderStr 0 ++ collapseWS w := by
  show collapseWS ('<' :: '<' :: 'L' :: 'A' :: 'T' :: 'E' :: 'X' :: '0' :: '>' :: '>' :: w)
    = '<' :: '<' :: 'L' :: 'A' :: 'T' :: 'E' :: 'X' :: '0' :: '>' :: '>' :: collapseWS w
  rw [collapseWS_cons_nonspace _ (by decide), collapseWS_cons_nonspace _ (by decide),
    collapseWS_cons_nonspace _ (by decide), collapseWS_cons_nonspace _ (by decide),
    collapseWS_cons_nonspace _ (by decide), collapseWS_cons_nonspace _ (by decide),
    collapseWS_cons_nonspace _ (by decide), collapseWS_cons_nonspace _ (by decide),
    collapseWS_cons_nonspace _ (by decide), collapseWS_cons_nonspace _ (by decide)]

theorem ph_append_ne_nil (u w : List Char) : u ++ placeholderStr 0 ++ w ≠ [] := by
  intro hu
  rw [List.append_eq_nil] at hu
  obtain ⟨h1, h2⟩ := hu
  rw [List.append_eq_nil] at h1
  exact absurd h1.2 (by decide)

theorem heurA_split (u w : List Char) :
    ∃ v, heurA (u ++ placeholderStr 0 ++ w) = v ++ placeholderStr 0 ++ heurA w := by
  induction u with
  | nil => exact ⟨[], heurA_ph w⟩
  | cons c u' ih =>
    obtain ⟨v', hv⟩ := ih
    cases hu : u' ++ placeholderStr 0 ++ w with
    | nil => exact absurd hu (ph_append_ne_nil u' w)
    | cons d rest =>
      rw [List.cons_append, List.cons_append, hu, heurA]
      by_cases hcond : (isPunctSent c && isLu d) = true
      · refine ⟨c :: ' ' :: '…' :: ' ' :: v', ?_⟩
        rw [if_pos hcond, ← hu, hv]
        simp
      · refine ⟨c :: v', ?_⟩
        rw [if_neg hcond, ← hu, hv]
        simp

theorem heurB_split (u w : List Char) :
    ∃ v, heurB (u ++ placeholderStr 0 ++ w) = v ++ placeholderStr 0 ++ heurB w := by
  induction u with
  | nil => exact ⟨[], heurB_ph w⟩
  | cons c u' ih =>
    obtain ⟨v', hv⟩ := ih
    cases hu : u' ++ placeholderStr 0 ++ w with
    | nil => exact absurd hu (ph_append_ne_nil u' w)
    | cons d rest =>
      cases rest with
      | nil =>
        exfalso
        have hl := congrArg List.length hu
        simp only [List.length_append, List.length_cons, List.length_nil] at hl
        have h10 : (placeholderStr 0).length = 10 := by decide
        omega
      | cons e rest2 =>
        rw [List.cons_append, List.cons_append, hu, heurB]
        by_cases hcond : ((isLl c || isNd c) && isLu d && isLl e) = true
        · refine ⟨c :: ' ' :: '…' :: ' ' :: v', ?_⟩
          rw [if_pos hcond, ← hu, hv]
          simp
        · refine ⟨c :: v', ?_⟩
          rw [if_neg hcond, ← hu, hv]
          simp

theorem collapseWS_split (u w : List Char) :
    ∃ v, collapseWS (u ++ placeholderStr 0 ++ w) = v ++ placeholderStr 0 ++ collapseWS w := by
  induction u with
  | nil => exact ⟨[], collapseWS_ph w⟩
  | cons c u' ih =>
    obtain ⟨v', hv⟩ := ih
    cases hu : u' ++ placeholderStr 0 ++ w with
    | nil => exact absurd hu (ph_append_ne_nil u' w)
    | cons d rest =>
      rw [List.cons_append, List.cons_append, hu, collapseWS]
      by_cases hcond : (jsIsSpace c && jsIsSpace d) = true
      · refine ⟨v', ?_⟩
        rw [if_pos hcond, ← hu, hv]
      · refine ⟨(if jsIsSpace c then ' ' else c) :: v', ?_⟩
        rw [if_neg hcond, ← hu, hv]
        simp

theorem dropWhile_to_marker {p : Char → Bool} {rest : List Char} {h0 : Char}
    (hh : rest.head? = some h0) (hp : p h0 = false) (u : List Char) :
    List.dropWhile p (u ++ rest) = List.dropWhile p u ++ rest := by
  induction u with
  | nil =>
    rw [List.nil_append, List.dropWhile_nil, List.nil_append]
    cases rest with
    | nil => simp at hh
    | cons r0 r =>
      rw [List.head?_cons, Option.some.injEq] at hh
      subst hh
      rw [List.dropWhile_cons, if_neg (by rw [hp]; simp)]
  | cons c u' ih =>
    rw [List.cons_append, List.dropWhile_cons, List.dropWhile_cons]
    by_cases hc : p c = true
    · rw [if_pos hc, if_pos hc, ih]
    · rw [if_neg hc, if_neg hc, List.cons_append]

theorem jsTrim_split (u w : List Char) :
    ∃ u2 w2, jsTrim (u ++ placeholderStr 0 ++ w) = u2 ++ placeholderStr 0 ++ w2 := by
  unfold jsTrim
  rw [List.append_assoc]
  rw [@dropWhile_to_marker jsIsSpace (placeholderStr 0 ++ w) '<' rfl (by decide) u]
  rw [← List.append_assoc, List.reverse_append, List.reverse_append]
  rw [@dropWhile_to_marker jsIsSpace
    ((placeholderStr 0).reverse ++ (List.dropWhile jsIsSpace u).reverse)
    '>' rfl (by decide) w.reverse]
  refine ⟨List.dropWhile jsIsSpace u, (List.dropWhile jsIsSpace w.reverse).reverse, ?_⟩
  rw [List.reverse_append, List.reverse_append, List.reverse_reverse, List.reverse_reverse]

theorem firstCharPos_append_marker {x : List Char} {c : Char} (hx : c ∉ x) (t : List Char) :
    firstCharPos c (x ++ c :: t) = some x.length := by
  induction x with
  | nil =>
    rw [List.nil_append, firstCharPos, if_pos (by simp)]
    rfl
  | cons e x' ih =>
    have he : e ≠ c := fun h => hx (h ▸ List.mem_cons_self _ _)
    rw [List.cons_append, firstCharPos, if_neg (by simp [he])]
    rw [ih (fun hm => hx (List.mem_cons_of_mem _ hm))]
    rfl

theorem protectFuel_pre :
    ∀ (pre : List Char), '$' ∉ pre →
      ∀ (fuel n : Nat) (s : List Char),
        protectFuel (pre.length + fuel) n (pre ++ s) =
          (pre ++ (protectFuel fuel n s).1, (protectFuel fuel n s).2) := by
  intro pre
  induction pre with
  | nil =>
    intro _ fuel n s
    simp
  | cons c pre' ih =>
    intro hpre fuel n s
    have hc : c ≠ '$' := fun h => hpre (h ▸ List.mem_cons_self _ _)
    have hpre' : '$' ∉ pre' := fun hm => hpre (List.mem_cons_of_mem _ hm)
    rw [show (c :: pre').length + fuel = (pre'.length + fuel) + 1 from by
      rw [List.length_cons]; omega]
    rw [List.cons_append, protectFuel, if_neg hc]
    rw [ih hpre' fuel n s]
    rfl

theorem protect_span {pre b post : List Char}
    (hpre : '$' ∉ pre) (hb : '$' ∉ b) (hpost : '$' ∉ post) (hbne : b ≠ []) :
    protect (pre ++ '$' :: b ++ '$' :: post) =
      (pre ++ placeholderStr 0 ++ post, ['$' :: b ++ ['$']]) := by
  unfold protect
  rw [List.append_assoc, List.cons_append]
  rw [show (pre ++ '$' :: (b ++ '$' :: post)).length
      = pre.length + (b.length + post.length + 2) from by
    simp only [List.length_append, List.length_cons]; omega]
  rw [protectFuel_pre pre hpre _ 0 _]
  have hstep : protectFuel (b.length + post.length + 2) 0 ('$' :: (b ++ '$' :: post))
      = (placeholderStr 0 ++ post, ['$' :: b ++ ['$']]) := by
    cases b with
    | nil => exact absurd rfl hbne
    | cons d b' =>
      have hd : d ≠ '$' := fun h => hb (h ▸ List.mem_cons_self _ _)
      have hb' : '$' ∉ b' := fun hm => hb (List.mem_cons_of_mem _ hm)
      rw [show (d :: b').length + post.length + 2
          = ((d :: b').length + post.length + 1) + 1 from by omega]
      rw [List.cons_append, protectFuel, if_pos rfl]
      rw [if_neg (show ¬((d :: (b' ++ '$' :: post)).head? = some '$') from by simp [hd])]
      have hfc : firstCharPos '$' (d :: (b' ++ '$' :: post)) = some (b'.length + 1) := by
        rw [firstCharPos, if_neg (by simp [hd])]
        rw [firstCharPos_append_marker hb' post]
        rfl
      rw [hfc]
      dsimp only
      have htake : (d :: (b' ++ '$' :: post)).take (b'.length + 1) = d :: b' := by
        rw [List.take_succ_cons, List.take_left]
      have hdrop : (d :: (b' ++ '$' :: post)).drop (b'.length + 1 + 1) = post := by
        rw [show b'.length + 1 + 1 = (b'.length + 1) + 1 from rfl, List.drop_succ_cons]
        rw [List.drop_append]
        rfl
      rw [htake, hdrop]
      rw [protectFuel_id _ _ _ hpost]
  rw [hstep]
  simp

theorem processRepl_nodollar_close {x : List Char} (hx : '$' ∉ x) :
    ∀ m p a, processRepl (x ++ ['$']) m p a = x ++ ['$'] := by
  induction x with
  | nil => intro m p a; rfl
  | cons e x' ih =>
    intro m p a
    have he : e ≠ '$' := fun h => hx (h ▸ List.mem_cons_self _ _)
    have hx' : '$' ∉ x' := fun hm => hx (List.mem_cons_of_mem _ hm)
    cases hx2 : x' ++ ['$'] with
    | nil => simp at hx2
    | cons f r =>
      rw [List.cons_append, hx2, processRepl, if_neg he, ← hx2, ih hx']

theorem processRepl_span {b : List Char} (hb : '$' ∉ b) (hbne : b ≠ [])
    (h1 : b.head? ≠ some '&') (h2 : b.head? ≠ some (Char.ofNat 96))
    (h3 : b.head? ≠ some (Char.ofNat 39)) :
    ∀ m p a, processRepl ('$' :: b ++ ['$']) m p a = '$' :: b ++ ['$'] := by
  cases b with
  | nil => exact absurd rfl hbne
  | cons d b' =>
    intro m p a
    have hd : d ≠ '$' := fun h => hb (h ▸ List.mem_cons_self _ _)
    have hb' : '$' ∉ b' := fun hm => hb (List.mem_cons_of_mem _ hm)
    have hd1 : d ≠ '&' := fun h => h1 (by rw [List.head?_cons, h])
    have hd2 : d ≠ Char.ofNat 96 := fun h => h2 (by rw [List.head?_cons, h])
    have hd3 : d ≠ Char.ofNat 39 := fun h => h3 (by rw [List.head?_cons, h])
    show processRepl ('$' :: d :: (b' ++ ['$'])) m p a = '$' :: d :: (b' ++ ['$'])
    rw [processRepl, if_pos rfl, if_neg hd, if_neg hd1, if_neg hd2, if_neg hd3]
    rw [processRepl_nodollar_close hb']

theorem jsReplaceFirst_infix {u w pat repl : List Char}
    (hproc : ∀ m p a, processRepl repl m p a = repl) :
    repl <:+: jsReplaceFirst (u ++ pat ++ w) pat repl := by
  unfold jsReplaceFirst
  cases hfpp : firstPrefixPos pat (u ++ pat ++ w) with
  | none =>
    exfalso
    rw [fpp_none_iff] at hfpp
    exact hfpp ⟨u, w, rfl⟩
  | some j =>
    show repl <:+:
      (u ++ pat ++ w).take j ++
        processRepl repl pat ((u ++ pat ++ w).take j)
          ((u ++ pat ++ w).drop (j + pat.length)) ++
        (u ++ pat ++ w).drop (j + pat.length)
    rw [hproc]
    exact ⟨(u ++ pat ++ w).take j, (u ++ pat ++ w).drop (j + pat.length), rfl⟩

/-- C4: the double-dollar escaping of `String.prototype.replace` mangles the
restored spans: for the display span "$$x$$" the sanitizer returns "$x$" and
the original span text does not reappear in the output. -/
theorem C4_counterexample :
    stripLiquidAndNoise ("$$x$$".toList) = "$x$".toList ∧
    ¬ ("$$x$$".toList <:+: stripLiquidAndNoise ("$$x$$".toList)) := by
  refine ⟨by decide, ?_⟩
  intro hinf
  have h3 : (stripLiquidAndNoise ("$$x$$".toList)).length = 3 := by decide
  have h5 := hinf.length_le
  simp only [h3] at h5
  exact absurd h5 (by decide)

/-- C4 (amended): a single-dollar span whose body is non-empty, contains no
dollar, and does not start with one of the replacement-pattern characters
`&`, the backtick or the apostrophe, embedded in dollar-free context free of
liquid braces and backslashes, is protected and restored verbatim: the exact
span text reappears contiguously in the sanitized output. -/
theorem C4_math_span (pre b post : List Char)
    (hpre : '$' ∉ pre) (hbd : '$' ∉ b) (hpost : '$' ∉ post) (hbne : b ≠ [])
    (hbrace : '\x7b' ∉ pre ++ '$' :: b ++ '$' :: post)
    (hbsl : '\\' ∉ pre ++ '$' :: b ++ '$' :: post)
    (hh1 : b.head? ≠ some '&') (hh2 : b.head? ≠ some (Char.ofNat 96))
    (hh3 : b.head? ≠ some (Char.ofNat 39)) :
    ('$' :: b ++ ['$']) <:+: stripLiquidAndNoise (pre ++ '$' :: b ++ '$' :: post) := by
  unfold stripLiquidAndNoise
  rw [if_neg (show ¬(pre ++ '$' :: b ++ '$' :: post).isEmpty = true from by
    simp [List.isEmpty_iff])]
  have e1 : liquidPass (pre ++ '$' :: b ++ '$' :: post) = pre ++ '$' :: b ++ '$' :: post := by
    unfold liquidPass replDelim
    rw [@replDelimFuel_id ("\x7b%".toList) ("%\x7d".toList) [' '] '\x7b' rfl _ _ hbrace]
    rw [@replDelimFuel_id ("\x7b\x7b".toList) ("\x7d\x7d".toList) [' '] '\x7b' rfl _ _ hbrace]
  rw [e1]
  have e2 : gatherParen (pre ++ '$' :: b ++ '$' :: post) = pre ++ '$' :: b ++ '$' :: post := by
    unfold gatherParen
    exact @gatherDelimFuel_id ("\\(".toList) ("\\)".toList) rfl _ _ hbsl
  rw [e2]
  have e3 : gatherBrack (pre ++ '$' :: b ++ '$' :: post) = pre ++ '$' :: b ++ '$' :: post := by
    unfold gatherBrack
    exact @gatherDelimFuel_id ("\\[".toList) ("\\]".toList) rfl _ _ hbsl
  rw [e3]
  have e4 : gatherBare (pre ++ '$' :: b ++ '$' :: post) = pre ++ '$' :: b ++ '$' :: post := by
    unfold gatherBare
    exact gatherBareFuel_id _ _ hbsl
  rw [e4]
  rw [protect_span hpre hbd hpost hbne]
  dsimp only
  obtain ⟨u1, hA⟩ := heurA_split pre post
  rw [hA]
  obtain ⟨u2, hB⟩ := heurB_split u1 (heurA post)
  rw [hB]
  obtain ⟨u3, hC⟩ := collapseWS_split u2 (heurB (heurA post))
  rw [hC]
  obtain ⟨u4, w4, hT⟩ := jsTrim_split u3 (collapseWS (heurB (heurA post)))
  rw [hT]
  rw [restoreAux, restoreAux]
  exact jsReplaceFirst_infix (processRepl_span hbd hbne hh1 hh2 hh3)

/-- Witness for C4 at a concrete span. -/
theorem C4_math_span_witness :
    ('$' :: "ab".toList ++ ['$']) <:+:
      stripLiquidAndNoise ("u ".toList ++ '$' :: "ab".toList ++ '$' :: " v".toList) :=
  C4_math_span ("u ".toList) ("ab".toList) (" v".toList)
    (by decide) (by decide) (by decide) (by decide) (by decide) (by decide)
    (by decide) (by decide) (by decide)

end SearchJs
